import Mathlib

/-!
The store engine of go_memstore (`store.go`, `snapshot.go`) and the `getval`
case of the command executor (`serve.go`).

A shallow embedding of the `Store` type and its methods.

* A Go `[]byte` is a list of bytes; a nil byte slice and an empty one are the
  same list, which is how `bytes.Equal` compares them.
* The Go map `Itms` is an association list read through `mapGet`; a nil map is
  `none`.  Reading or deleting on a nil map is allowed, assigning panics.
* A method that can panic returns an `Option`; `none` is the panic.
* `time.Now().Unix()` is an explicit argument `now`.
* The gob decoder, the file system and `strconv.Atoi` are outside the
  repository; their outcomes are inputs of the methods that call them.
* The methods are first embedded as functions of the store, without the
  mutex.  For concurrent calls, `stepAt` runs the bodies of `App` and `GC`
  statement by statement in several goroutines, with `self.mu` as shared state.
-/

namespace MemStore

/-- A Go byte slice. -/
abbrev Bytes := List (Fin 256)

/-- The struct `expItem`: a key and its absolute expiration time. -/
structure expItem where
  k : String
  ttl : Int
deriving DecidableEq, Repr

/-- The contents of a non-nil `map[string][][]byte`. -/
abbrev ItemMap := List (String × List Bytes)

/-- The map read `m[k]`, with the comma-ok result as `Option`. -/
def mapGet : ItemMap → String → Option (List Bytes)
  | [], _ => none
  | (k', v) :: rest, k => if k' = k then some v else mapGet rest k

/-- The builtin `delete(m, k)`. -/
def mapDelete (m : ItemMap) (k : String) : ItemMap :=
  m.filter (fun p => decide (p.1 ≠ k))

/-- The map assignment `m[k] = v`. -/
def mapSet (m : ItemMap) (k : String) (v : List Bytes) : ItemMap :=
  (k, v) :: mapDelete m k

/-- The builtin `len(m)`: the number of distinct keys. -/
def mapLen (m : ItemMap) : Nat :=
  (m.map Prod.fst).dedup.length

/-- The struct `Store`; `Itms = none` is the nil map. -/
structure Store where
  Itms : Option ItemMap
  Exps : List expItem
deriving DecidableEq, Repr

/-- The read `self.Itms[k]`, which is allowed on a nil map. -/
def itmsGet (s : Store) (k : String) : Option (List Bytes) :=
  match s.Itms with
  | none => none
  | some m => mapGet m k

/-- The call `delete(self.Itms, k)`, a no-op on a nil map. -/
def itmsDelete (itms : Option ItemMap) (k : String) : Option ItemMap :=
  itms.map (fun m => mapDelete m k)

/-- The store built by `GetStore`: an empty map and an empty expiry slice. -/
def GetStore : Store :=
  { Itms := some [], Exps := [] }

/-- Two's-complement wrap-around of an `int64` result. -/
def wrap64 (x : Int) : Int :=
  (x + 2 ^ 63) % 2 ^ 64 - 2 ^ 63

/-- The method `HasKey`. -/
def HasKey (s : Store) (k : String) : Bool :=
  (itmsGet s k).isSome

/-- The method `Set`; assigning into a nil map panics. -/
def Set (s : Store) (k : String) (v : Bytes) : Option (Store × Bool) :=
  match s.Itms with
  | none => none
  | some m =>
    let m' := mapSet m k [v]
    some ({ s with Itms := some m' }, (mapGet m' k).isSome)

/-- The method `App`; assigning into a nil map panics. -/
def App (s : Store) (k : String) (v : List Bytes) : Option (Store × Bool) :=
  match s.Itms with
  | none => none
  | some m =>
    let m' := mapSet m k ((mapGet m k).getD [] ++ v)
    some ({ s with Itms := some m' }, (mapGet m' k).isSome)

/-- The method `Get`; an absent key gives the nil slice. -/
def Get (s : Store) (k : String) : List Bytes :=
  (itmsGet s k).getD []

/-- The three statements run by `DelVal` on a match at index `i`, on the backing
array `arr` of a slice whose current length is `len`:
`copy(s[i:], s[i+1:])`, `s[len(s)-1] = nil`, `s = s[:len(s)-1]`.
The cells from `len` on are outside the slice and keep their content. -/
def delValRemove (arr : List Bytes) (len i : Nat) : List Bytes :=
  arr.take i ++ (arr.drop (i + 1)).take (len - (i + 1)) ++ [[]] ++ arr.drop len

/-- The loop `for i, itm := range self.Itms[k]` of `DelVal`.  The range
expression is evaluated once, so the loop makes one iteration per cell of the
original slice (`rem` are left, the next is `i`) and reads `itm` from the
backing array `arr`, while the body works on the current slice of length `len`.
Slicing `s[i+1:]` with `i + 1 > len(s)` panics. -/
def delValLoop (v : Bytes) : Nat → Nat → List Bytes → Nat → Option (List Bytes × Nat)
  | 0, _, arr, len => some (arr, len)
  | rem + 1, i, arr, len =>
    if arr.getD i [] = v then
      if i + 1 ≤ len then delValLoop v rem (i + 1) (delValRemove arr len i) (len - 1)
      else none
    else delValLoop v rem (i + 1) arr len

/-- The value-list that the loop of `DelVal` leaves for a key holding `L`. -/
def delValList (v : Bytes) (L : List Bytes) : Option (List Bytes) :=
  (delValLoop v L.length 0 L L.length).map (fun r => r.1.take r.2)

/-- The method `DelVal`. -/
def DelVal (s : Store) (k : String) (v : Bytes) : Option (Store × Bool) :=
  match s.Itms with
  | none => some (s, false)
  | some m =>
    match mapGet m k with
    | none => some (s, false)
    | some L =>
      match delValList v L with
      | none => none
      | some L' => some ({ s with Itms := some (mapSet m k L') }, true)

/-- The loop of `Del`:
`for i := 0; i < len(Exps); i++ { if Exps[i].k == k { Exps = append(Exps[:i], Exps[i+1:]...); i-- } }`.
The `i--` of the body and the `i++` of the loop header together leave `i` where
it is.  Every iteration lowers `len(Exps) - i` by one, so `fuel = len(Exps)` is
enough (`delLoop_fuel`). -/
def delLoop (k : String) : Nat → List expItem → Nat → List expItem
  | 0, exps, _ => exps
  | fuel + 1, exps, i =>
    if h : i < exps.length then
      if (exps.get ⟨i, h⟩).k = k then delLoop k fuel (exps.take i ++ exps.drop (i + 1)) i
      else delLoop k fuel exps (i + 1)
    else exps

/-- The method `Del`. -/
def Del (s : Store) (k : String) : Store × Bool :=
  let s' : Store :=
    { Itms := itmsDelete s.Itms k, Exps := delLoop k s.Exps.length s.Exps 0 }
  (s', (itmsGet s' k).isSome == false)

/-- The loop `for i, itm := range self.Exps` of `Exp`: every entry of the key
gets the time `t`; the flag `updated` is carried along. -/
def expLoop (k : String) (t : Int) : List expItem → Bool → List expItem × Bool
  | [], updated => ([], updated)
  | itm :: rest, updated =>
    if itm.k = k then
      let r := expLoop k t rest true
      ({ itm with ttl := t } :: r.1, r.2)
    else
      let r := expLoop k t rest updated
      (itm :: r.1, r.2)

/-- The method `Exp`, called when the clock reads `clock`; the sum
`time.Now().Unix() + n` is an `int64`. -/
def Exp (s : Store) (k : String) (n : Int) (clock : Int) : Store × Bool :=
  let ok := (itmsGet s k).isSome
  let now := wrap64 (clock + n)
  if ok then
    let r := expLoop k now s.Exps false
    if !r.2 then ({ s with Exps := r.1 ++ [{ k := k, ttl := now }] }, ok)
    else ({ s with Exps := r.1 }, ok)
  else (s, ok)

/-- The loop of `TTL`, which stops at the first entry of the key. -/
def ttlLoop (k : String) (now : Int) : List expItem → Int
  | [] => 0
  | itm :: rest => if itm.k = k then wrap64 (itm.ttl - now) else ttlLoop k now rest

/-- The method `TTL` (with a 64-bit `int`), called when the clock reads `now`. -/
def TTL (s : Store) (k : String) (now : Int) : Int :=
  ttlLoop k now s.Exps

/-- The index expression `s[i]` with a Go `int` index; out of range panics. -/
def sliceIndex (s : List Bytes) (i : Int) : Option Bytes :=
  if 0 ≤ i ∧ i < s.length then s.get? i.toNat else none

/-- The slice expression `s[a:b]` for `b ≤ len(s)`; `a < 0` or `a > b` panics. -/
def sliceRange (s : List Bytes) (a b : Int) : Option (List Bytes) :=
  if 0 ≤ a ∧ a ≤ b ∧ b ≤ s.length then some ((s.take b.toNat).drop a.toNat) else none

/-- The method `GetVal`; the result `v` starts as the nil slice. -/
def GetVal (s : Store) (k : String) (i : List Int) : Option (List Bytes) :=
  match itmsGet s k with
  | none => some []
  | some itm =>
    match i with
    | [i0] =>
      if i0 ≤ itm.length then (sliceIndex itm i0).map (fun x => [] ++ [x])
      else some []
    | [i0, i1] =>
      if i0 ≤ i1 ∧ i1 ≤ itm.length then sliceRange itm i0 i1
      else some []
    | _ => some []

/-- The loop of `GC`:
`for i := 0; i < len(Exps); i++ { if Exps[i].ttl <= now { delete(Itms, Exps[i].k); Exps = append(Exps[:i], Exps[i+1:]...); i-- } }`.
As in `delLoop`, `i--` and `i++` cancel and `fuel = len(Exps)` is enough
(`gcLoop_fuel`). -/
def gcLoop (now : Int) : Nat → Option ItemMap → List expItem → Nat → Option ItemMap × List expItem
  | 0, itms, exps, _ => (itms, exps)
  | fuel + 1, itms, exps, i =>
    if h : i < exps.length then
      if (exps.get ⟨i, h⟩).ttl ≤ now then
        gcLoop now fuel (itmsDelete itms (exps.get ⟨i, h⟩).k) (exps.take i ++ exps.drop (i + 1)) i
      else gcLoop now fuel itms exps (i + 1)
    else (itms, exps)

/-- The method `GC`, one sweeper cycle when the clock reads `now`. -/
def GC (s : Store) (now : Int) : Store :=
  if 0 < s.Exps.length then
    let r := gcLoop now s.Exps.length s.Itms s.Exps 0
    { Itms := r.1, Exps := r.2 }
  else s

/-- The first loop of `Purge`:
`for i := 0; i < len(Exps); i++ { delete(Itms, Exps[i].k); Exps = append(Exps[:i], Exps[i+1:]...); i-- }`. -/
def purgeExpLoop : Nat → Option ItemMap → List expItem → Nat → Option ItemMap × List expItem
  | 0, itms, exps, _ => (itms, exps)
  | fuel + 1, itms, exps, i =>
    if h : i < exps.length then
      purgeExpLoop fuel (itmsDelete itms (exps.get ⟨i, h⟩).k) (exps.take i ++ exps.drop (i + 1)) i
    else (itms, exps)

/-- The second loop of `Purge`: `for k, _ := range Itms { delete(Itms, k) }`.
Every iteration removes at least the entry it visits, so `fuel = ` the number
of entries is enough. -/
def purgeMapLoop : Nat → ItemMap → ItemMap
  | 0, m => m
  | fuel + 1, m =>
    match m with
    | [] => []
    | (k, _) :: _ => purgeMapLoop fuel (mapDelete m k)

/-- The method `Purge`. -/
def Purge (s : Store) : Store × Bool :=
  let r := purgeExpLoop s.Exps.length s.Itms s.Exps 0
  let itms := r.1.map (fun m => purgeMapLoop m.length m)
  let s' : Store := { Itms := itms, Exps := r.2 }
  (s', decide ((itms.map mapLen).getD 0 = 0) && decide (r.2.length = 0))

/-- What `dec.Decode(&self.Itms)` of encoding/gob leaves behind when it is
called on the nil map: the content of `self.Itms` afterwards, and whether the
returned `err` is nil.  The decoder is outside this repository and is taken as
an input. -/
structure DecodeResult where
  itms : Option ItemMap
  ok : Bool
deriving DecidableEq, Repr

/-- A snapshot file that cannot be opened: `os.Open` returns a nil file, every
read of it fails, and `Decode` returns an error without storing anything. -/
def openFailed : DecodeResult :=
  { itms := none, ok := false }

/-- A snapshot that decodes to the mapping `M`. -/
def decoded (M : ItemMap) : DecodeResult :=
  { itms := some M, ok := true }

/-- The method `LoadSnapshot`: `self.Itms = nil`, then `Decode(&self.Itms)`;
`self.Exps` is not mentioned. -/
def LoadSnapshot (s : Store) (r : DecodeResult) : Store × Bool :=
  ({ Itms := r.itms, Exps := s.Exps }, r.ok)

/-- One call on the store, with its arguments and the clock it reads. -/
inductive Op where
  | set (k : String) (v : Bytes)
  | app (k : String) (v : List Bytes)
  | del (k : String)
  | exp (k : String) (n : Int) (clock : Int)
  | delVal (k : String) (v : Bytes)
  | purge
  | gc (now : Int)
  | load (r : DecodeResult)
deriving DecidableEq, Repr

/-- Whether the call is one of Set, Append, Delete, Expire, DeleteValue, Purge
and a sweeper cycle, that is, not a snapshot load. -/
def Op.noLoad : Op → Bool
  | .load _ => false
  | _ => true

/-- The state after one call; `none` when the call panics. -/
def step (s : Store) : Op → Option Store
  | .set k v => (Set s k v).map Prod.fst
  | .app k v => (App s k v).map Prod.fst
  | .del k => some (Del s k).1
  | .exp k n clock => some (Exp s k n clock).1
  | .delVal k v => (DelVal s k v).map Prod.fst
  | .purge => some (Purge s).1
  | .gc now => some (GC s now)
  | .load r => some (LoadSnapshot s r).1

/-- The state after a sequence of calls, none of which panics. -/
def runOps : Store → List Op → Option Store
  | s, [] => some s
  | s, op :: ops => (step s op).bind (fun s' => runOps s' ops)

/-- The loop of the `getval` case of `HandleConn`:
`for i := 2; i < len(args[2:]); i++ { n, _ := strconv.Atoi(string(args[i])); ns = append(ns, n) }`.
`strconv.Atoi` is outside this repository and is the input `atoi`.  The loop
makes at most `len(args)` iterations, which is the fuel of `getvalNs`. -/
def getvalLoop (atoi : Bytes → Int) (args : List Bytes) : Nat → Nat → List Int → List Int
  | 0, _, ns => ns
  | fuel + 1, i, ns =>
    if i < (args.drop 2).length then
      getvalLoop atoi args fuel (i + 1) (ns ++ [atoi (args.getD i [])])
    else ns

/-- The index list `ns` that the `getval` case builds from the split command
line `args`. -/
def getvalNs (atoi : Bytes → Int) (args : List Bytes) : List Int :=
  getvalLoop atoi args args.length 2 []

/-- The `getval` case of `HandleConn` on the split command line `args`, with the
key `string(args[1])` given as `key`: under the guard `len(args[1:]) >= 2` the
result of `Store.GetVal` (`none` is a panic), and `some []` with no call made
when the guard fails and nothing is written. -/
def getvalCase (atoi : Bytes → Int) (s : Store) (key : String) (args : List Bytes) :
    Option (List Bytes) :=
  if 2 ≤ (args.drop 1).length then GetVal s key (getvalNs atoi args) else some []

/-! ## Goroutines running `App` and `GC` under the mutex -/

/-- One concurrent call on the key under consideration: an `App` with one value,
or a sweeper cycle `GC` whose `time.Now().Unix()` reads `now`. -/
inductive Slot where
  | append (v : Bytes)
  | sweep (now : Int)
deriving DecidableEq, Repr

/-- Where a goroutine stands in the body of its method.
For `App`: `start` (before `self.mu.Lock()`), `locked`, `loaded tmp` (the
operand `self.Itms[k]` of `append` has been read), `stored` (the assignment
`self.Itms[k] = append(...)` is done), `checked ok` (after `_, ok := self.Itms[k]`),
`returned ok` (after `self.mu.Unlock()`).
For `GC`: `start`, `locked`, `scanning i` (at the test of the loop with index
`i`), `swept` (the loop is over), `finished` (after `self.mu.Unlock()`). -/
inductive Pc where
  | start
  | locked
  | loaded (tmp : List Bytes)
  | stored
  | checked (ok : Bool)
  | returned (ok : Bool)
  | scanning (i : Nat)
  | swept
  | finished
deriving DecidableEq, Repr

/-- A goroutine: the call it makes and where it stands in it. -/
structure Thread where
  call : Slot
  pc : Pc
deriving DecidableEq, Repr

/-- The store shared by the goroutines, the state of `self.mu` (true when
locked), and the goroutines. -/
structure Config where
  store : Store
  mu : Bool
  threads : List Thread
deriving DecidableEq, Repr

/-- The next statement of goroutine `i`, which is `t`, on the key `k`.
`self.mu.Lock()` on a locked mutex blocks: the configuration stays as it is.
A goroutine that has returned does nothing.  `none` is a panic (an assignment
into the nil map), which ends the process.  One pass of the loop of `GC` is
the test `i < len(Exps)` with the body of `gcLoop`. -/
def stepThread (k : String) (c : Config) (i : Nat) (t : Thread) : Option Config :=
  match t.call, t.pc with
  | .append _, .start =>
    if c.mu then some c
    else some { store := c.store, mu := true, threads := c.threads.set i { t with pc := .locked } }
  | .append _, .locked =>
    some { store := c.store, mu := c.mu,
           threads := c.threads.set i { t with pc := .loaded ((itmsGet c.store k).getD []) } }
  | .append v, .loaded tmp =>
    match c.store.Itms with
    | none => none
    | some m =>
      some { store := { c.store with Itms := some (mapSet m k (tmp ++ [v])) }, mu := c.mu,
             threads := c.threads.set i { t with pc := .stored } }
  | .append _, .stored =>
    some { store := c.store, mu := c.mu,
           threads := c.threads.set i { t with pc := .checked (itmsGet c.store k).isSome } }
  | .append _, .checked ok =>
    some { store := c.store, mu := false, threads := c.threads.set i { t with pc := .returned ok } }
  | .sweep _, .start =>
    if c.mu then some c
    else some { store := c.store, mu := true, threads := c.threads.set i { t with pc := .locked } }
  | .sweep _, .locked =>
    if 0 < c.store.Exps.length then
      some { store := c.store, mu := c.mu, threads := c.threads.set i { t with pc := .scanning 0 } }
    else some { store := c.store, mu := c.mu, threads := c.threads.set i { t with pc := .swept } }
  | .sweep now, .scanning j =>
    if h : j < c.store.Exps.length then
      if (c.store.Exps.get ⟨j, h⟩).ttl ≤ now then
        some { store := { Itms := itmsDelete c.store.Itms (c.store.Exps.get ⟨j, h⟩).k,
                          Exps := c.store.Exps.take j ++ c.store.Exps.drop (j + 1) },
               mu := c.mu, threads := c.threads.set i { t with pc := .scanning j } }
      else
        some { store := c.store, mu := c.mu,
               threads := c.threads.set i { t with pc := .scanning (j + 1) } }
    else some { store := c.store, mu := c.mu, threads := c.threads.set i { t with pc := .swept } }
  | .sweep _, .swept =>
    some { store := c.store, mu := false, threads := c.threads.set i { t with pc := .finished } }
  | _, _ => some c

/-- The scheduler lets goroutine `i` run its next statement. -/
def stepAt (k : String) (c : Config) (i : Nat) : Option Config :=
  match c.threads[i]? with
  | none => some c
  | some t => stepThread k c i t

/-- The scheduler runs the goroutines in the order `sched`, one statement at a
time; `none` when a goroutine panics. -/
def runSched (k : String) : Config → List Nat → Option Config
  | c, [] => some c
  | c, i :: sched => (stepAt k c i).bind (fun c' => runSched k c' sched)

/-- The calls `calls` issued concurrently on the store `s`: the mutex is free
and every goroutine is about to enter its method. -/
def startConfig (s : Store) (calls : List Slot) : Config :=
  { store := s, mu := false, threads := calls.map (fun call => { call := call, pc := .start }) }

/-! ## Notions used to state the properties -/

/-- The keys `ks` deleted from the map one after the other. -/
def deleteKeys (itms : Option ItemMap) (ks : List String) : Option ItemMap :=
  ks.foldl itmsDelete itms

/-- The keys of the expiry entries, in order. -/
def expKeys (exps : List expItem) : List String :=
  exps.map (fun e => e.k)

/-- The entries whose time is `<= now`. -/
def expired (now : Int) (exps : List expItem) : List expItem :=
  exps.filter (fun e => decide (e.ttl ≤ now))

/-- The entries whose time is `> now`. -/
def alive (now : Int) (exps : List expItem) : List expItem :=
  exps.filter (fun e => decide (now < e.ttl))

/-- The read `itms[k]` on a map that may be nil. -/
def optGet (itms : Option ItemMap) (k : String) : Option (List Bytes) :=
  match itms with
  | none => none
  | some m => mapGet m k

/-- Every key with an expiry entry is present in the item mapping. -/
def ExpsInItms (s : Store) : Prop :=
  ∀ e ∈ s.Exps, HasKey s e.k = true

/-- No two expiry entries share a key. -/
def ExpsNodup (s : Store) : Prop :=
  (expKeys s.Exps).Nodup

/-- The entry update made by `Exp`: the time `t` for every entry of key `k`. -/
def retime (k : String) (t : Int) (e : expItem) : expItem :=
  if e.k = k then { e with ttl := t } else e

/-- What the loop of `DelVal` leaves of a value-list when `v` is not empty: a
removed element lets the one after it slip through unexamined. -/
def skipDel (v : Bytes) : List Bytes → List Bytes
  | [] => []
  | [x] => if x = v then [] else [x]
  | x :: y :: rest => if x = v then y :: skipDel v rest else x :: skipDel v (y :: rest)

/-- The sub-sequence `L[a:b)` of a value-list. -/
def subRange (L : List Bytes) (a b : Int) : List Bytes :=
  (L.take b.toNat).drop a.toNat

/-- A value fits in an `int64`. -/
def inInt64 (x : Int) : Prop :=
  -(2 ^ 63) ≤ x ∧ x < 2 ^ 63

/-- The values of the `Append` calls among `calls`, in order. -/
def slotValues : List Slot → List Bytes
  | [] => []
  | .append v :: rest => v :: slotValues rest
  | .sweep _ :: rest => slotValues rest

/-- The clocks read by the sweeper cycles among `calls`. -/
def sweepClocks : List Slot → List Int
  | [] => []
  | .append _ :: rest => sweepClocks rest
  | .sweep now :: rest => now :: sweepClocks rest

/-- The goroutine is between its `Lock` and its `Unlock`. -/
def Pc.inside : Pc → Bool
  | .start => false
  | .returned _ => false
  | .finished => false
  | _ => true

/-- The goroutine has returned from its method. -/
def Pc.isDone : Pc → Bool
  | .returned _ => true
  | .finished => true
  | _ => false

/-- The position is one of the method that the goroutine runs. -/
def Thread.wf (t : Thread) : Bool :=
  match t.call, t.pc with
  | .append _, .scanning _ => false
  | .append _, .swept => false
  | .append _, .finished => false
  | .sweep _, .loaded _ => false
  | .sweep _, .stored => false
  | .sweep _, .checked _ => false
  | .sweep _, .returned _ => false
  | _, _ => true

/-- The value that the goroutine has appended so far, if any. -/
def Thread.storedVal (t : Thread) : Option Bytes :=
  match t.call, t.pc with
  | .append v, .stored => some v
  | .append v, .checked _ => some v
  | .append v, .returned _ => some v
  | _, _ => none

/-- The values appended so far by the goroutines, in the order of the
goroutines. -/
def storedVals (threads : List Thread) : List Bytes :=
  threads.filterMap Thread.storedVal

/-- Every goroutine has returned. -/
def allDone (c : Config) : Bool :=
  c.threads.all (fun t => t.pc.isDone)

/-- Every `App` that has returned has returned true. -/
def allTrue (c : Config) : Bool :=
  c.threads.all (fun t => match t.pc with | .returned ok => ok | _ => true)

/-- What holds of every configuration reached from `startConfig s0 calls` on a
store with a non-nil mapping in which no expiry entry of `k` is due at a
sweeper cycle. -/
structure Inv (k : String) (s0 : Store) (calls : List Slot) (c : Config) : Prop where
  calls_eq : c.threads.map (fun t => t.call) = calls
  wf : ∀ (i : Nat) (t : Thread), c.threads[i]? = some t → t.wf = true
  itms : ∃ m, c.store.Itms = some m
  exps : ∀ e ∈ c.store.Exps, e.k = k → ∀ now ∈ sweepClocks calls, now < e.ttl
  excl : ∀ (i j : Nat) (ti tj : Thread), c.threads[i]? = some ti → c.threads[j]? = some tj →
    ti.pc.inside = true → tj.pc.inside = true → i = j
  held : c.mu = true ↔ ∃ (i : Nat) (t : Thread), c.threads[i]? = some t ∧ t.pc.inside = true
  vals : ∃ L, Get c.store k = Get s0 k ++ L ∧ L.Perm (storedVals c.threads)
  loaded : ∀ (i : Nat) (t : Thread) (tmp : List Bytes), c.threads[i]? = some t →
    t.pc = Pc.loaded tmp → tmp = (itmsGet c.store k).getD []
  present : ∀ (i : Nat) (t : Thread), c.threads[i]? = some t → t.pc = Pc.stored →
    HasKey c.store k = true
  oks : ∀ (i : Nat) (t : Thread) (ok : Bool), c.threads[i]? = some t →
    (t.pc = Pc.checked ok ∨ t.pc = Pc.returned ok) → ok = true

/-- A decimal reader standing for `strconv.Atoi` on digit strings. -/
def atoiDigits (b : Bytes) : Int :=
  b.foldl (fun acc d => acc * 10 + ((d.val : Int) - 48)) 0

/-! ## The map primitives -/

theorem mapGet_mapDelete (m : ItemMap) (k k' : String) :
    mapGet (mapDelete m k) k' = if k = k' then none else mapGet m k' := by
  induction m with
  | nil => simp [mapDelete, mapGet]
  | cons p rest ih =>
    obtain ⟨a, b⟩ := p
    simp only [mapDelete] at ih
    by_cases hak : a = k
    · subst hak
      by_cases hk : a = k'
      · simp [mapDelete, hk] at ih ⊢
        simpa using ih
      · simp [mapDelete, mapGet, hk] at ih ⊢
        simpa [hk] using ih
    · by_cases hk : k = k'
      · subst hk
        simp [mapDelete, mapGet, hak] at ih ⊢
        simpa using ih
      · simp [mapDelete, mapGet, hak, hk] at ih ⊢
        rw [ih]

theorem mapGet_mapSet (m : ItemMap) (k k' : String) (v : List Bytes) :
    mapGet (mapSet m k v) k' = if k = k' then some v else mapGet m k' := by
  by_cases hk : k = k'
  · simp [mapSet, mapGet, hk]
  · simp [mapSet, mapGet, hk, mapGet_mapDelete]

theorem optGet_itmsDelete (itms : Option ItemMap) (k k' : String) :
    optGet (itmsDelete itms k) k' = if k = k' then none else optGet itms k' := by
  cases itms with
  | none => simp [optGet, itmsDelete]
  | some m => simp [optGet, itmsDelete, mapGet_mapDelete]

theorem optGet_deleteKeys (ks : List String) (itms : Option ItemMap) (k : String) :
    optGet (deleteKeys itms ks) k = if k ∈ ks then none else optGet itms k := by
  induction ks generalizing itms with
  | nil => simp [deleteKeys]
  | cons a rest ih =>
    have h := ih (itmsDelete itms a)
    simp only [deleteKeys, List.foldl_cons] at h ⊢
    rw [h, optGet_itmsDelete]
    by_cases hr : k ∈ rest
    · simp [hr]
    · by_cases ha : a = k
      · simp [ha]
      · have ha' : ¬ k = a := fun e => ha e.symm
        simp [hr, ha, ha']

theorem deleteKeys_isSome (ks : List String) (itms : Option ItemMap) :
    (deleteKeys itms ks).isSome = itms.isSome := by
  induction ks generalizing itms with
  | nil => simp [deleteKeys]
  | cons a rest ih =>
    have h := ih (itmsDelete itms a)
    simp only [deleteKeys, List.foldl_cons] at h ⊢
    rw [h]
    cases itms <;> simp [itmsDelete]

/-! ## The index loops over `Exps` -/

theorem take_drop_middle (pre rest : List expItem) (e : expItem) :
    (pre ++ e :: rest).take pre.length ++ (pre ++ e :: rest).drop (pre.length + 1)
      = pre ++ rest := by
  simp [List.take_append_eq_append_take, List.drop_append_eq_append_drop]

theorem get_middle (pre rest : List expItem) (e : expItem)
    (h : pre.length < (pre ++ e :: rest).length) :
    (pre ++ e :: rest).get ⟨pre.length, h⟩ = e := by
  induction pre with
  | nil => rfl
  | cons a pre ih => simpa using ih (by simp)

theorem gcLoop_append (now : Int) (post : List expItem) :
    ∀ (pre : List expItem) (fuel : Nat) (itms : Option ItemMap), post.length ≤ fuel →
      gcLoop now fuel itms (pre ++ post) pre.length
        = (deleteKeys itms (expKeys (expired now post)), pre ++ alive now post) := by
  induction post with
  | nil =>
    intro pre fuel itms _
    cases fuel <;> simp [gcLoop, deleteKeys, expKeys, expired, alive]
  | cons e rest ih =>
    intro pre fuel itms hf
    cases fuel with
    | zero => simp at hf
    | succ fuel =>
      have hlen : pre.length < (pre ++ e :: rest).length := by simp
      have hf' : rest.length ≤ fuel := by simpa using hf
      rw [gcLoop, dif_pos hlen, get_middle, take_drop_middle]
      by_cases he : e.ttl ≤ now
      · rw [if_pos he, ih pre fuel _ hf']
        have hne : ¬ now < e.ttl := by omega
        simp [expired, alive, expKeys, deleteKeys, he, hne]
      · rw [if_neg he]
        have h := ih (pre ++ [e]) fuel itms hf'
        simp only [List.append_assoc, List.singleton_append, List.length_append,
          List.length_singleton] at h
        rw [h]
        have hlt : now < e.ttl := by omega
        simp [expired, alive, expKeys, he, hlt]

theorem delLoop_append (k : String) (post : List expItem) :
    ∀ (pre : List expItem) (fuel : Nat), post.length ≤ fuel →
      delLoop k fuel (pre ++ post) pre.length
        = pre ++ post.filter (fun e => decide (e.k ≠ k)) := by
  induction post with
  | nil =>
    intro pre fuel _
    cases fuel <;> simp [delLoop]
  | cons e rest ih =>
    intro pre fuel hf
    cases fuel with
    | zero => simp at hf
    | succ fuel =>
      have hlen : pre.length < (pre ++ e :: rest).length := by simp
      have hf' : rest.length ≤ fuel := by simpa using hf
      rw [delLoop, dif_pos hlen, get_middle, take_drop_middle]
      by_cases he : e.k = k
      · rw [if_pos he, ih pre fuel hf']
        simp [he]
      · rw [if_neg he]
        have h := ih (pre ++ [e]) fuel hf'
        simp only [List.append_assoc, List.singleton_append, List.length_append,
          List.length_singleton] at h
        rw [h]
        simp [he]

theorem purgeExpLoop_append (post : List expItem) :
    ∀ (pre : List expItem) (fuel : Nat) (itms : Option ItemMap), post.length ≤ fuel →
      purgeExpLoop fuel itms (pre ++ post) pre.length
        = (deleteKeys itms (expKeys post), pre) := by
  induction post with
  | nil =>
    intro pre fuel itms _
    cases fuel <;> simp [purgeExpLoop, deleteKeys, expKeys]
  | cons e rest ih =>
    intro pre fuel itms hf
    cases fuel with
    | zero => simp at hf
    | succ fuel =>
      have hlen : pre.length < (pre ++ e :: rest).length := by simp
      have hf' : rest.length ≤ fuel := by simpa using hf
      rw [purgeExpLoop, dif_pos hlen, get_middle, take_drop_middle, ih pre fuel _ hf']
      simp [expKeys, deleteKeys]

/-- More fuel than `len(Exps)` does not change what the loop of `GC` computes. -/
theorem gcLoop_fuel (now : Int) (fuel : Nat) (itms : Option ItemMap) (exps : List expItem)
    (h : exps.length ≤ fuel) :
    gcLoop now fuel itms exps 0 = gcLoop now exps.length itms exps 0 := by
  have h1 := gcLoop_append now exps [] fuel itms h
  have h2 := gcLoop_append now exps [] exps.length itms (le_refl _)
  simp only [List.nil_append, List.length_nil] at h1 h2
  rw [h1, h2]

/-- More fuel than `len(Exps)` does not change what the loop of `Del` computes. -/
theorem delLoop_fuel (k : String) (fuel : Nat) (exps : List expItem)
    (h : exps.length ≤ fuel) :
    delLoop k fuel exps 0 = delLoop k exps.length exps 0 := by
  have h1 := delLoop_append k exps [] fuel h
  have h2 := delLoop_append k exps [] exps.length (le_refl _)
  simp only [List.nil_append, List.length_nil] at h1 h2
  rw [h1, h2]

/-- More fuel than `len(Exps)` does not change what the first loop of `Purge` computes. -/
theorem purgeExpLoop_fuel (fuel : Nat) (itms : Option ItemMap) (exps : List expItem)
    (h : exps.length ≤ fuel) :
    purgeExpLoop fuel itms exps 0 = purgeExpLoop exps.length itms exps 0 := by
  have h1 := purgeExpLoop_append exps [] fuel itms h
  have h2 := purgeExpLoop_append exps [] exps.length itms (le_refl _)
  simp only [List.nil_append, List.length_nil] at h1 h2
  rw [h1, h2]

/-! ## What `GC`, `Del` and `Purge` compute -/

theorem itmsGet_eq_optGet (s : Store) (k : String) : itmsGet s k = optGet s.Itms k := by
  cases s with
  | mk itms exps => cases itms <;> rfl

theorem GC_Exps (s : Store) (now : Int) : (GC s now).Exps = alive now s.Exps := by
  unfold GC
  split
  · have h := gcLoop_append now s.Exps [] s.Exps.length s.Itms (le_refl _)
    simp only [List.nil_append, List.length_nil] at h
    simp [h]
  · next hlen =>
    have : s.Exps = [] := by
      cases hs : s.Exps with
      | nil => rfl
      | cons a l => simp [hs] at hlen
    simp [this, alive]

theorem GC_Itms (s : Store) (now : Int) :
    (GC s now).Itms = deleteKeys s.Itms (expKeys (expired now s.Exps)) := by
  unfold GC
  split
  · have h := gcLoop_append now s.Exps [] s.Exps.length s.Itms (le_refl _)
    simp only [List.nil_append, List.length_nil] at h
    simp [h]
  · next hlen =>
    have : s.Exps = [] := by
      cases hs : s.Exps with
      | nil => rfl
      | cons a l => simp [hs] at hlen
    simp [this, expired, expKeys, deleteKeys]

theorem itmsGet_GC (s : Store) (now : Int) (k : String) :
    itmsGet (GC s now) k
      = if k ∈ expKeys (expired now s.Exps) then none else itmsGet s k := by
  rw [itmsGet_eq_optGet, GC_Itms, optGet_deleteKeys, itmsGet_eq_optGet]

theorem mem_expKeys_expired (now : Int) (exps : List expItem) (k : String) :
    k ∈ expKeys (expired now exps) ↔ ∃ e ∈ exps, e.k = k ∧ e.ttl ≤ now := by
  simp only [expKeys, expired, List.mem_map, List.mem_filter, decide_eq_true_eq]
  constructor
  · rintro ⟨e, ⟨he, ht⟩, hk⟩
    exact ⟨e, he, hk, ht⟩
  · rintro ⟨e, he, hk, ht⟩
    exact ⟨e, ⟨he, ht⟩, hk⟩

theorem Del_Exps (s : Store) (k : String) :
    (Del s k).1.Exps = s.Exps.filter (fun e => decide (e.k ≠ k)) := by
  have h := delLoop_append k s.Exps [] s.Exps.length (le_refl _)
  simp only [List.nil_append, List.length_nil] at h
  simp [Del, h]

theorem Del_Itms (s : Store) (k : String) : (Del s k).1.Itms = itmsDelete s.Itms k := rfl

theorem purgeMapLoop_nil (fuel : Nat) :
    ∀ m : ItemMap, m.length ≤ fuel → purgeMapLoop fuel m = [] := by
  induction fuel with
  | zero =>
    intro m hm
    cases m with
    | nil => rfl
    | cons a l => simp at hm
  | succ fuel ih =>
    intro m hm
    cases m with
    | nil => rfl
    | cons a l =>
      obtain ⟨k, v⟩ := a
      simp only [purgeMapLoop]
      apply ih
      have h1 : mapDelete ((k, v) :: l) k = mapDelete l k := by simp [mapDelete]
      have h2 : (mapDelete l k).length ≤ l.length := List.length_filter_le _ _
      have h3 : l.length ≤ fuel := by simpa using hm
      rw [h1]
      omega

theorem Purge_state (s : Store) :
    (Purge s).1 = { Itms := s.Itms.map (fun _ => []), Exps := [] } := by
  have h := purgeExpLoop_append s.Exps [] s.Exps.length s.Itms (le_refl _)
  simp only [List.nil_append, List.length_nil] at h
  simp only [Purge, h]
  cases hd : deleteKeys s.Itms (expKeys s.Exps) with
  | none =>
    have := deleteKeys_isSome (expKeys s.Exps) s.Itms
    rw [hd] at this
    cases hi : s.Itms with
    | none => simp
    | some m => simp [hi] at this
  | some m =>
    have := deleteKeys_isSome (expKeys s.Exps) s.Itms
    rw [hd] at this
    cases hi : s.Itms with
    | none => simp [hi] at this
    | some m' => simp [purgeMapLoop_nil m.length m (le_refl _)]

/-! ## What `Exp` computes -/

theorem expLoop_eq (k : String) (t : Int) (exps : List expItem) (u : Bool) :
    expLoop k t exps u = (exps.map (retime k t), u || decide (k ∈ expKeys exps)) := by
  induction exps generalizing u with
  | nil => simp [expLoop, expKeys]
  | cons e rest ih =>
    by_cases he : e.k = k
    · simp only [expLoop, if_pos he, ih]
      simp [retime, he, expKeys]
    · have he' : ¬ k = e.k := fun h => he h.symm
      simp only [expLoop, if_neg he, ih]
      simp [retime, he, he', expKeys]

theorem expKeys_retime (k : String) (t : Int) (exps : List expItem) :
    expKeys (exps.map (retime k t)) = expKeys exps := by
  induction exps with
  | nil => rfl
  | cons e rest ih =>
    simp only [expKeys, List.map_cons, List.cons.injEq] at ih ⊢
    refine ⟨?_, ih⟩
    unfold retime
    split <;> rfl

theorem Exp_absent (s : Store) (k : String) (n clock : Int) (h : itmsGet s k = none) :
    Exp s k n clock = (s, false) := by
  simp [Exp, h]

theorem Exp_present_entry (s : Store) (k : String) (n clock : Int)
    (h : (itmsGet s k).isSome = true) (hk : k ∈ expKeys s.Exps) :
    Exp s k n clock
      = ({ s with Exps := s.Exps.map (retime k (wrap64 (clock + n))) }, true) := by
  simp [Exp, h, expLoop_eq, hk]

theorem Exp_present_fresh (s : Store) (k : String) (n clock : Int)
    (h : (itmsGet s k).isSome = true) (hk : k ∉ expKeys s.Exps) :
    Exp s k n clock
      = ({ s with Exps := s.Exps.map (retime k (wrap64 (clock + n)))
                            ++ [{ k := k, ttl := wrap64 (clock + n) }] }, true) := by
  simp [Exp, h, expLoop_eq, hk]

theorem map_retime_fresh (k : String) (t : Int) (exps : List expItem)
    (hk : k ∉ expKeys exps) : exps.map (retime k t) = exps := by
  induction exps with
  | nil => rfl
  | cons e rest ih =>
    simp only [expKeys, List.map_cons, List.mem_cons, not_or] at hk ih ⊢
    have he : ¬ e.k = k := fun h => hk.1 h.symm
    rw [ih hk.2]
    simp [retime, he]

theorem Exp_Itms (s : Store) (k : String) (n clock : Int) :
    (Exp s k n clock).1.Itms = s.Itms := by
  unfold Exp
  simp only
  split
  · split <;> rfl
  · rfl

theorem expKeys_Exp (s : Store) (k : String) (n clock : Int) :
    expKeys (Exp s k n clock).1.Exps = expKeys s.Exps
      ∨ (k ∉ expKeys s.Exps ∧ (itmsGet s k).isSome = true
          ∧ expKeys (Exp s k n clock).1.Exps = expKeys s.Exps ++ [k]) := by
  cases h : itmsGet s k with
  | none => left; rw [Exp_absent s k n clock h]
  | some L =>
    have hs : (itmsGet s k).isSome = true := by simp [h]
    by_cases hk : k ∈ expKeys s.Exps
    · left
      rw [Exp_present_entry s k n clock hs hk]
      exact expKeys_retime _ _ _
    · right
      refine ⟨hk, rfl, ?_⟩
      rw [Exp_present_fresh s k n clock hs hk]
      simp only [expKeys, List.map_append, List.map_cons, List.map_nil]
      have := expKeys_retime k (wrap64 (clock + n)) s.Exps
      simp only [expKeys] at this
      rw [this]

/-! ## What `Set`, `App` and `DelVal` compute -/

theorem Set_eq (s : Store) (m : ItemMap) (k : String) (v : Bytes) (h : s.Itms = some m) :
    Set s k v = some ({ s with Itms := some (mapSet m k [v]) }, true) := by
  simp [Set, h, mapGet_mapSet]

theorem App_eq (s : Store) (m : ItemMap) (k : String) (vs : List Bytes)
    (h : s.Itms = some m) :
    App s k vs
      = some ({ s with Itms := some (mapSet m k ((mapGet m k).getD [] ++ vs)) }, true) := by
  simp [App, h, mapGet_mapSet]

theorem Set_nil (s : Store) (k : String) (v : Bytes) (h : s.Itms = none) :
    Set s k v = none := by
  simp [Set, h]

theorem App_nil (s : Store) (k : String) (vs : List Bytes) (h : s.Itms = none) :
    App s k vs = none := by
  simp [App, h]

theorem DelVal_cases (s : Store) (k : String) (v : Bytes) (r : Store × Bool)
    (h : DelVal s k v = some r) :
    r = (s, false) ∨ ∃ m L L', s.Itms = some m ∧ mapGet m k = some L
          ∧ delValList v L = some L' ∧ r = ({ s with Itms := some (mapSet m k L') }, true) := by
  unfold DelVal at h
  cases hm : s.Itms with
  | none =>
    simp only [hm] at h
    left
    exact (Option.some.inj h).symm
  | some m =>
    simp only [hm] at h
    cases hg : mapGet m k with
    | none =>
      simp only [hg] at h
      left
      exact (Option.some.inj h).symm
    | some L =>
      simp only [hg] at h
      cases hd : delValList v L with
      | none => simp [hd] at h
      | some L' =>
        simp only [hd] at h
        right
        exact ⟨m, L, L', rfl, hg, hd, (Option.some.inj h).symm⟩

/-! ## One call keeps the expiry keys distinct and inside the mapping -/

theorem expKeys_filter_nodup (p : expItem → Bool) (exps : List expItem)
    (h : (expKeys exps).Nodup) : (expKeys (exps.filter p)).Nodup :=
  List.Nodup.sublist (List.Sublist.map _ (List.filter_sublist exps)) h

theorem step_ExpsNodup (s s' : Store) (op : Op) (h : step s op = some s')
    (hn : ExpsNodup s) : ExpsNodup s' := by
  unfold ExpsNodup at hn ⊢
  cases op with
  | set k v =>
    cases hm : s.Itms with
    | none => simp [step, Set_nil s k v hm] at h
    | some m =>
      simp only [step, Set_eq s m k v hm, Option.map_some', Option.some.injEq] at h
      rw [← h]; exact hn
  | app k vs =>
    cases hm : s.Itms with
    | none => simp [step, App_nil s k vs hm] at h
    | some m =>
      simp only [step, App_eq s m k vs hm, Option.map_some', Option.some.injEq] at h
      rw [← h]; exact hn
  | del k =>
    simp only [step, Option.some.injEq] at h
    rw [← h, Del_Exps]
    exact expKeys_filter_nodup _ _ hn
  | exp k n clock =>
    simp only [step, Option.some.injEq] at h
    rw [← h]
    rcases expKeys_Exp s k n clock with h1 | ⟨hk, _, h1⟩
    · rw [h1]; exact hn
    · rw [h1]
      exact List.Nodup.append hn (List.nodup_singleton k)
        (by simpa [List.disjoint_singleton] using hk)
  | delVal k v =>
    cases hd : DelVal s k v with
    | none => simp [step, hd] at h
    | some r =>
      simp only [step, hd, Option.map_some', Option.some.injEq] at h
      rcases DelVal_cases s k v r hd with hr | ⟨m, L, L', _, _, _, hr⟩
      · rw [← h, hr]; exact hn
      · rw [← h, hr]; exact hn
  | purge =>
    simp only [step, Option.some.injEq] at h
    rw [← h, Purge_state]
    exact List.nodup_nil
  | gc now =>
    simp only [step, Option.some.injEq] at h
    rw [← h, GC_Exps]
    exact expKeys_filter_nodup _ _ hn
  | load r =>
    simp only [step, Option.some.injEq] at h
    rw [← h]
    exact hn

theorem runOps_ExpsNodup (ops : List Op) :
    ∀ s s' : Store, runOps s ops = some s' → ExpsNodup s → ExpsNodup s' := by
  induction ops with
  | nil =>
    intro s s' h hn
    simp only [runOps, Option.some.injEq] at h
    rw [← h]; exact hn
  | cons op ops ih =>
    intro s s' h hn
    cases hs : step s op with
    | none => simp [runOps, hs] at h
    | some s1 =>
      simp only [runOps, hs, Option.some_bind] at h
      exact ih s1 s' h (step_ExpsNodup s s1 op hs hn)

theorem HasKey_mapSet (s : Store) (m : ItemMap) (k k' : String) (L : List Bytes)
    (hm : s.Itms = some m) (h : HasKey s k' = true) :
    HasKey { s with Itms := some (mapSet m k L) } k' = true := by
  simp only [HasKey, itmsGet, hm] at h ⊢
  rw [mapGet_mapSet]
  split
  · rfl
  · exact h

theorem alive_key_not_expired (now : Int) (exps : List expItem) (e : expItem)
    (hn : (expKeys exps).Nodup) (he : e ∈ alive now exps) :
    e.k ∉ expKeys (expired now exps) := by
  intro hx
  rw [mem_expKeys_expired] at hx
  obtain ⟨e', he', hk, ht⟩ := hx
  have hmem : e ∈ exps := (List.mem_filter.mp he).1
  have hlt : now < e.ttl := by simpa using (List.mem_filter.mp he).2
  have : e' = e := List.inj_on_of_nodup_map hn he' hmem hk
  subst this
  omega

theorem step_ExpsInItms (s s' : Store) (op : Op) (hop : op.noLoad = true)
    (h : step s op = some s') (hi : ExpsInItms s) (hn : ExpsNodup s) : ExpsInItms s' := by
  unfold ExpsInItms at hi ⊢
  cases op with
  | set k v =>
    cases hm : s.Itms with
    | none => simp [step, Set_nil s k v hm] at h
    | some m =>
      simp only [step, Set_eq s m k v hm, Option.map_some', Option.some.injEq] at h
      rw [← h]
      intro e he
      exact HasKey_mapSet s m k e.k _ hm (hi e he)
  | app k vs =>
    cases hm : s.Itms with
    | none => simp [step, App_nil s k vs hm] at h
    | some m =>
      simp only [step, App_eq s m k vs hm, Option.map_some', Option.some.injEq] at h
      rw [← h]
      intro e he
      exact HasKey_mapSet s m k e.k _ hm (hi e he)
  | del k =>
    simp only [step, Option.some.injEq] at h
    rw [← h]
    intro e he
    rw [Del_Exps] at he
    have hmem : e ∈ s.Exps := (List.mem_filter.mp he).1
    have hk : e.k ≠ k := by simpa using (List.mem_filter.mp he).2
    have hk' : ¬ k = e.k := fun x => hk x.symm
    have := hi e hmem
    simp only [HasKey, itmsGet_eq_optGet, Del_Itms, optGet_itmsDelete, if_neg hk'] at this ⊢
    exact this
  | exp k n clock =>
    simp only [step, Option.some.injEq] at h
    rw [← h]
    intro e he
    have hkey : e.k ∈ expKeys (Exp s k n clock).1.Exps := List.mem_map_of_mem _ he
    have hItms : ∀ k', HasKey (Exp s k n clock).1 k' = HasKey s k' := by
      intro k'
      simp only [HasKey, itmsGet_eq_optGet, Exp_Itms]
    rw [hItms]
    rcases expKeys_Exp s k n clock with h1 | ⟨_, hp, h1⟩
    · rw [h1] at hkey
      obtain ⟨e0, he0, hk0⟩ := List.mem_map.mp hkey
      rw [← hk0]
      exact hi e0 he0
    · rw [h1, List.mem_append] at hkey
      rcases hkey with hkey | hkey
      · obtain ⟨e0, he0, hk0⟩ := List.mem_map.mp hkey
        rw [← hk0]
        exact hi e0 he0
      · rw [List.mem_singleton] at hkey
        rw [hkey]
        exact hp
  | delVal k v =>
    cases hd : DelVal s k v with
    | none => simp [step, hd] at h
    | some r =>
      simp only [step, hd, Option.map_some', Option.some.injEq] at h
      rcases DelVal_cases s k v r hd with hr | ⟨m, L, L', hm, _, _, hr⟩
      · rw [← h, hr]; exact hi
      · rw [← h, hr]
        intro e he
        exact HasKey_mapSet s m k e.k _ hm (hi e he)
  | purge =>
    simp only [step, Option.some.injEq] at h
    rw [← h, Purge_state]
    intro e he
    simp at he
  | gc now =>
    simp only [step, Option.some.injEq] at h
    rw [← h]
    intro e he
    rw [GC_Exps] at he
    have hmem : e ∈ s.Exps := (List.mem_filter.mp he).1
    have hnot := alive_key_not_expired now s.Exps e hn he
    have := hi e hmem
    simp only [HasKey, itmsGet_GC, if_neg hnot] at this ⊢
    exact this
  | load r => simp [Op.noLoad] at hop

theorem runOps_invariant (ops : List Op) :
    ∀ s s' : Store, (∀ op ∈ ops, op.noLoad = true) → runOps s ops = some s' →
      ExpsInItms s → ExpsNodup s → ExpsInItms s' ∧ ExpsNodup s' := by
  induction ops with
  | nil =>
    intro s s' _ h hi hn
    simp only [runOps, Option.some.injEq] at h
    rw [← h]; exact ⟨hi, hn⟩
  | cons op ops ih =>
    intro s s' hops h hi hn
    cases hs : step s op with
    | none => simp [runOps, hs] at h
    | some s1 =>
      simp only [runOps, hs, Option.some_bind] at h
      have hop : op.noLoad = true := hops op (List.mem_cons_self _ _)
      exact ih s1 s' (fun o ho => hops o (List.mem_cons_of_mem _ ho)) h
        (step_ExpsInItms s s1 op hop hs hi hn) (step_ExpsNodup s s1 op hs hn)

theorem GetStore_ExpsInItms : ExpsInItms GetStore := by
  intro e he
  simp [GetStore] at he

theorem GetStore_ExpsNodup : ExpsNodup GetStore := by
  simp [ExpsNodup, GetStore, expKeys]

/-! ## Auxiliary facts on `TTL` and `wrap64` -/

theorem ttlLoop_no_entry (k : String) (now : Int) (exps : List expItem)
    (h : k ∉ expKeys exps) : ttlLoop k now exps = 0 := by
  induction exps with
  | nil => rfl
  | cons e rest ih =>
    simp only [expKeys, List.map_cons, List.mem_cons, not_or] at h ih
    have he : ¬ e.k = k := fun x => h.1 x.symm
    simp only [ttlLoop, if_neg he]
    exact ih h.2

theorem wrap64_of_range (x : Int) (h1 : -(2 ^ 63) ≤ x) (h2 : x < 2 ^ 63) : wrap64 x = x := by
  unfold wrap64
  omega

theorem Exp_present_entries (s : Store) (k : String) (n clock : Int)
    (h : HasKey s k = true) :
    k ∈ expKeys (Exp s k n clock).1.Exps
      ∧ ∀ e ∈ (Exp s k n clock).1.Exps, e.k = k → e.ttl = wrap64 (clock + n) := by
  have hret : ∀ e ∈ s.Exps.map (retime k (wrap64 (clock + n))), e.k = k →
      e.ttl = wrap64 (clock + n) := by
    intro e he hk
    obtain ⟨e0, _, rfl⟩ := List.mem_map.mp he
    unfold retime at hk ⊢
    split
    · rfl
    · next hne => simp [hne] at hk
  by_cases hk : k ∈ expKeys s.Exps
  · rw [Exp_present_entry s k n clock h hk]
    refine ⟨?_, hret⟩
    show k ∈ expKeys (s.Exps.map (retime k (wrap64 (clock + n))))
    rw [expKeys_retime]
    exact hk
  · rw [Exp_present_fresh s k n clock h hk]
    refine ⟨?_, ?_⟩
    · simp [expKeys]
    · intro e he hek
      rcases List.mem_append.mp he with h1 | h1
      · exact hret e h1 hek
      · rw [List.mem_singleton] at h1
        rw [h1]

/-! ## The claims -/

/-- C1 (the code departs from the claim): after `Set(k,"x")`, `Append(k,"x")`,
`DeleteValue(k,"x")` the key still holds `["x"]`, whereas removing every element
equal to `"x"` from `["x","x"]` leaves the empty list: the second of two
adjacent occurrences is skipped.  The example of the claim itself,
`Set(k,"x")`, `Append(k,"y","x")`, `DeleteValue(k,"x")`, does give `["y"]`. -/
theorem DelVal_skips_adjacent_occurrence :
    (runOps GetStore [.set "k" [120], .app "k" [[120]], .delVal "k" [120]]).map
        (fun s => Get s "k") = some [[120]]
      ∧ ([[120], [120]] : List Bytes).filter (fun x => decide (x ≠ [120])) = []
      ∧ (runOps GetStore [.set "k" [120], .app "k" [[121], [120]], .delVal "k" [120]]).map
        (fun s => Get s "k") = some [[121]] := by
  decide

/-- C2 (the code departs from the claim): on a key holding the three values
`"a"`, `"b"`, `"c"`, `GetVal(k, 3)` and `GetVal(k, -1)` panic with an index out
of range instead of returning an empty result, because the guard is
`i[0] <= len(itm)`; `GetVal(k, 5)` is empty and `GetVal(k, 1)` is `["b"]`. -/
theorem GetVal_index_at_length_panics :
    runOps GetStore [.set "k" [97], .app "k" [[98], [99]]]
        = some { Itms := some [("k", [[97], [98], [99]])], Exps := [] }
      ∧ GetVal { Itms := some [("k", [[97], [98], [99]])], Exps := [] } "k" [3] = none
      ∧ GetVal { Itms := some [("k", [[97], [98], [99]])], Exps := [] } "k" [-1] = none
      ∧ GetVal { Itms := some [("k", [[97], [98], [99]])], Exps := [] } "k" [5] = some []
      ∧ GetVal { Itms := some [("k", [[97], [98], [99]])], Exps := [] } "k" [1] = some [[98]] := by
  decide

/-- C3, as stated, fails: a key that has an expiry entry when the snapshot is
loaded keeps it.  After `Set(k,"a")`, `Expire(k,100)` at clock 0 and a load of
the mapping `k -> ["a"]`, `TTL(k)` at clock 0 is 100 and the sweeper cycle at
clock 100 removes `k`. -/
theorem LoadSnapshot_keeps_expiry_counterexample :
    runOps GetStore [.set "k" [97], .exp "k" 100 0, .load (decoded [("k", [[97]])])]
        = some { Itms := some [("k", [[97]])], Exps := [{ k := "k", ttl := 100 }] }
      ∧ TTL { Itms := some [("k", [[97]])], Exps := [{ k := "k", ttl := 100 }] } "k" 0 = 100
      ∧ HasKey (GC { Itms := some [("k", [[97]])], Exps := [{ k := "k", ttl := 100 }] } 100)
          "k" = false := by
  decide

/-- C3, amended: a load that decodes the mapping `M` returns true, replaces the
mapping by `M` and leaves the expiry entries as they were; so for every key `k`
that has no expiry entry at the time of the load, `TTL(k)` is 0 at every clock
and a following sweeper cycle at any clock leaves the value-list of `k` as
loaded. -/
theorem LoadSnapshot_decoded_no_entry (s : Store) (M : ItemMap) (k : String)
    (h : k ∉ expKeys s.Exps) :
    (LoadSnapshot s (decoded M)).2 = true
      ∧ (LoadSnapshot s (decoded M)).1.Itms = some M
      ∧ (LoadSnapshot s (decoded M)).1.Exps = s.Exps
      ∧ ∀ now : Int, TTL (LoadSnapshot s (decoded M)).1 k now = 0
          ∧ itmsGet (GC (LoadSnapshot s (decoded M)).1 now) k = mapGet M k := by
  refine ⟨rfl, rfl, rfl, fun now => ⟨ttlLoop_no_entry k now s.Exps h, ?_⟩⟩
  rw [itmsGet_GC]
  have hne : k ∉ expKeys (expired now (LoadSnapshot s (decoded M)).1.Exps) := by
    intro hx
    rw [mem_expKeys_expired] at hx
    obtain ⟨e, he, hk, _⟩ := hx
    exact h (List.mem_map.mpr ⟨e, he, hk⟩)
  rw [if_neg hne]
  rfl

/-- C3, amended, at a concrete input: the mapping `k -> ["a"]` loaded into the
empty store; `TTL(k)` at clock 7 is 0 and the sweeper cycle at clock 7 keeps
`k`. -/
theorem LoadSnapshot_decoded_no_entry_witness :
    "k" ∉ expKeys GetStore.Exps
      ∧ (LoadSnapshot GetStore (decoded [("k", [[97]])])).1.Itms = some [("k", [[97]])]
      ∧ TTL (LoadSnapshot GetStore (decoded [("k", [[97]])])).1 "k" 7 = 0
      ∧ itmsGet (GC (LoadSnapshot GetStore (decoded [("k", [[97]])])).1 7) "k"
          = some [[97]] :=
  have h := LoadSnapshot_decoded_no_entry GetStore [("k", [[97]])] "k" (by decide)
  ⟨by decide, h.2.1, (h.2.2.2 7).1, (h.2.2.2 7).2⟩

/-- C4 (the code departs from the claim): after `Set(k,"")` and `Append(k,"a")`
the key holds `["", "a"]`, and `DeleteValue(k,"")` panics: the cell cleared by
the first removal is read by the range loop, compares equal to the empty value,
and `s[i+1:]` is then sliced past the end of the shortened slice. -/
theorem DelVal_empty_value_panics :
    runOps GetStore [.set "k" [], .app "k" [[97]]]
        = some { Itms := some [("k", [[], [97]])], Exps := [] }
      ∧ DelVal { Itms := some [("k", [[], [97]])], Exps := [] } "k" [] = none := by
  decide

/-- C5 (the code departs from the claim): after a load whose file cannot be
opened, from any store, `LoadSnapshot` has returned false, `HasKey(k)` is false
and `Get(k)` is empty for every key, but the mapping is the nil map and a
following `Set(k, v)` panics instead of returning true. -/
theorem LoadSnapshot_openFailed_then_Set_panics (s : Store) (k : String) (v : Bytes) :
    (LoadSnapshot s openFailed).2 = false
      ∧ HasKey (LoadSnapshot s openFailed).1 k = false
      ∧ Get (LoadSnapshot s openFailed).1 k = []
      ∧ (LoadSnapshot s openFailed).1.Itms = none
      ∧ Set (LoadSnapshot s openFailed).1 k v = none :=
  ⟨rfl, rfl, rfl, rfl, rfl⟩

/-- C6: in every state reached from the empty store by Set, Append, Delete,
Expire, DeleteValue, Purge and sweeper cycles at arbitrary clocks, every key
that has an expiry entry is present in the item mapping. -/
theorem reachable_ExpsInItms (ops : List Op) (s : Store)
    (hops : ∀ op ∈ ops, op.noLoad = true) (h : runOps GetStore ops = some s) :
    ∀ e ∈ s.Exps, HasKey s e.k = true :=
  (runOps_invariant ops GetStore s hops h GetStore_ExpsInItms GetStore_ExpsNodup).1

/-- C6 at a concrete run: two keys set and expiring, then a sweeper cycle at
clock 5 that evicts one of them. -/
theorem reachable_ExpsInItms_witness :
    (∀ op ∈ [Op.set "k" [97], Op.exp "k" 10 0, Op.set "j" [98], Op.exp "j" 3 0, Op.gc 5],
        op.noLoad = true)
      ∧ runOps GetStore
          [Op.set "k" [97], Op.exp "k" 10 0, Op.set "j" [98], Op.exp "j" 3 0, Op.gc 5]
          = some { Itms := some [("k", [[97]])], Exps := [{ k := "k", ttl := 10 }] }
      ∧ ∀ e ∈ [({ k := "k", ttl := 10 } : expItem)],
          HasKey { Itms := some [("k", [[97]])], Exps := [{ k := "k", ttl := 10 }] } e.k
            = true :=
  ⟨by decide, by decide,
    reachable_ExpsInItms
      [Op.set "k" [97], Op.exp "k" 10 0, Op.set "j" [98], Op.exp "j" 3 0, Op.gc 5]
      { Itms := some [("k", [[97]])], Exps := [{ k := "k", ttl := 10 }] }
      (by decide) (by decide)⟩

/-- C7, as stated, fails in its second part: after `Set(k,"a")`, `Expire(k,10)`
at clock 0 and a load of the empty mapping, `k` has an expiry entry but is not
in the mapping, and `Expire(k,20)` at clock 0 returns false and leaves the
entry at time 10. -/
theorem Exp_absent_key_keeps_entry_counterexample :
    runOps GetStore [.set "k" [97], .exp "k" 10 0, .load (decoded [])]
        = some { Itms := some [], Exps := [{ k := "k", ttl := 10 }] }
      ∧ Exp { Itms := some [], Exps := [{ k := "k", ttl := 10 }] } "k" 20 0
        = ({ Itms := some [], Exps := [{ k := "k", ttl := 10 }] }, false) := by
  decide

/-- C7, amended: in every state reached from the empty store by Set, Append,
Delete, Expire, DeleteValue, Purge, Load and sweeper cycles, no two expiry
entries share a key; and `Expire` on a key that is present in the mapping and
already has an entry returns true, gives every entry of that key the time
`clock + n` (as an `int64`), and leaves the number of entries, their keys and
their order unchanged. -/
theorem reachable_ExpsNodup_and_Exp_replaces (ops : List Op) (s : Store)
    (h : runOps GetStore ops = some s) :
    (expKeys s.Exps).Nodup
      ∧ ∀ (k : String) (n clock : Int), HasKey s k = true → k ∈ expKeys s.Exps →
          (Exp s k n clock).2 = true
            ∧ (Exp s k n clock).1.Exps.length = s.Exps.length
            ∧ expKeys (Exp s k n clock).1.Exps = expKeys s.Exps
            ∧ (∀ e ∈ (Exp s k n clock).1.Exps, e.k = k → e.ttl = wrap64 (clock + n))
            ∧ (∀ e ∈ s.Exps, e.k ≠ k → e ∈ (Exp s k n clock).1.Exps) := by
  refine ⟨runOps_ExpsNodup ops GetStore s h GetStore_ExpsNodup, ?_⟩
  intro k n clock hk hmem
  have hall := (Exp_present_entries s k n clock hk).2
  rw [Exp_present_entry s k n clock hk hmem] at hall ⊢
  refine ⟨rfl, by simp, expKeys_retime _ _ _, hall, ?_⟩
  intro e he hne
  refine List.mem_map.mpr ⟨e, he, ?_⟩
  simp [retime, hne]

/-- C7, amended, at a concrete run that ends with a load; `Expire` on the
present key `k` keeps the single entry. -/
theorem reachable_ExpsNodup_and_Exp_replaces_witness :
    runOps GetStore [.set "k" [97], .exp "k" 10 0, .load (decoded [("k", [])])]
        = some { Itms := some [("k", [])], Exps := [{ k := "k", ttl := 10 }] }
      ∧ (expKeys [({ k := "k", ttl := 10 } : expItem)]).Nodup
      ∧ (Exp { Itms := some [("k", [])], Exps := [{ k := "k", ttl := 10 }] } "k" 20 5).1.Exps.length
          = 1 :=
  have h := reachable_ExpsNodup_and_Exp_replaces
    [.set "k" [97], .exp "k" 10 0, .load (decoded [("k", [])])]
    { Itms := some [("k", [])], Exps := [{ k := "k", ttl := 10 }] } (by decide)
  ⟨by decide, h.1, (h.2 "k" 20 5 (by decide) (by decide)).2.1⟩

/-- C8: for every store state and clock `now`, one sweeper cycle leaves exactly
the expiry entries whose time is `> now`, in their original order, and removes
from the mapping the key of every entry whose time is `<= now`.  Consequently,
for a present key `k`, seconds `n <= 0` and clocks `0 <= t <= t'` (Unix times,
all values in the `int64` range), `Expire(k, n)` at clock `t` followed by one
sweeper cycle at clock `t'` leaves `HasKey(k)` false and no expiry entry for
`k`. -/
theorem GC_sweeps_expired (s : Store) (now : Int) :
    (GC s now).Exps = s.Exps.filter (fun e => decide (now < e.ttl))
      ∧ (∀ e ∈ s.Exps, e.ttl ≤ now → HasKey (GC s now) e.k = false)
      ∧ ∀ (k : String) (n t t' : Int), HasKey s k = true → n ≤ 0 → -(2 ^ 63) ≤ n →
          0 ≤ t → t ≤ t' → t < 2 ^ 63 →
          (Exp s k n t).2 = true
            ∧ HasKey (GC (Exp s k n t).1 t') k = false
            ∧ ∀ e ∈ (GC (Exp s k n t).1 t').Exps, e.k ≠ k := by
  refine ⟨GC_Exps s now, ?_, ?_⟩
  · intro e he ht
    have hx : e.k ∈ expKeys (expired now s.Exps) :=
      (mem_expKeys_expired now s.Exps e.k).mpr ⟨e, he, rfl, ht⟩
    simp [HasKey, itmsGet_GC, hx]
  · intro k n t t' hk hn hn' ht0 htt ht63
    obtain ⟨hmem, hall⟩ := Exp_present_entries s k n t hk
    have hw : wrap64 (t + n) = t + n := wrap64_of_range _ (by omega) (by omega)
    refine ⟨?_, ?_, ?_⟩
    · by_cases hke : k ∈ expKeys s.Exps
      · rw [Exp_present_entry s k n t hk hke]
      · rw [Exp_present_fresh s k n t hk hke]
    · obtain ⟨e, he, hek⟩ := List.mem_map.mp hmem
      have hx : k ∈ expKeys (expired t' (Exp s k n t).1.Exps) :=
        (mem_expKeys_expired t' _ k).mpr ⟨e, he, hek, by rw [hall e he hek, hw]; omega⟩
      simp [HasKey, itmsGet_GC, hx]
    · intro e he hek
      rw [GC_Exps] at he
      have h1 : e ∈ (Exp s k n t).1.Exps := (List.mem_filter.mp he).1
      have h2 : t' < e.ttl := by simpa using (List.mem_filter.mp he).2
      rw [hall e h1 hek, hw] at h2
      omega

/-- C8 at a concrete input: `Expire(k, -1)` at clock 10 and a sweeper cycle at
clock 10. -/
theorem GC_sweeps_expired_witness :
    HasKey { Itms := some [("k", [[97]]), ("j", [[98]])], Exps := [{ k := "j", ttl := 50 }] }
        "k" = true
      ∧ HasKey (GC (Exp { Itms := some [("k", [[97]]), ("j", [[98]])],
                          Exps := [{ k := "j", ttl := 50 }] } "k" (-1) 10).1 10) "k" = false
      ∧ ∀ e ∈ (GC (Exp { Itms := some [("k", [[97]]), ("j", [[98]])],
                          Exps := [{ k := "j", ttl := 50 }] } "k" (-1) 10).1 10).Exps,
          e.k ≠ "k" :=
  have h := (GC_sweeps_expired
    { Itms := some [("k", [[97]]), ("j", [[98]])], Exps := [{ k := "j", ttl := 50 }] } 10).2.2
      "k" (-1) 10 10 (by decide) (by decide) (by decide) (by decide) (by decide) (by decide)
  ⟨by decide, h.2.1, h.2.2⟩

/-- C9: in every state reached from the empty store by Set, Append, Delete,
Expire, DeleteValue, Purge and sweeper cycles, for every clock `now`, a sweeper
cycle leaves unchanged the value-list of every key that has no expiry entry or
whose expiry entry has a time `> now`, and that entry is still in the expiry
collection afterwards. -/
theorem GC_never_early (ops : List Op) (s : Store)
    (hops : ∀ op ∈ ops, op.noLoad = true) (h : runOps GetStore ops = some s)
    (now : Int) (k : String)
    (hk : k ∉ expKeys s.Exps ∨ ∃ e ∈ s.Exps, e.k = k ∧ now < e.ttl) :
    itmsGet (GC s now) k = itmsGet s k
      ∧ HasKey (GC s now) k = HasKey s k
      ∧ Get (GC s now) k = Get s k
      ∧ ∀ e ∈ s.Exps, e.k = k → e ∈ (GC s now).Exps := by
  have hn : (expKeys s.Exps).Nodup :=
    (runOps_invariant ops GetStore s hops h GetStore_ExpsInItms GetStore_ExpsNodup).2
  have hlive : ∀ e ∈ s.Exps, e.k = k → now < e.ttl := by
    intro e he hek
    rcases hk with hk | ⟨e', he', hek', ht⟩
    · exact absurd (List.mem_map.mpr ⟨e, he, hek⟩) hk
    · have : e = e' := List.inj_on_of_nodup_map hn he he' (hek.trans hek'.symm)
      rw [this]; exact ht
  have hnot : k ∉ expKeys (expired now s.Exps) := by
    intro hx
    rw [mem_expKeys_expired] at hx
    obtain ⟨e, he, hek, ht⟩ := hx
    have := hlive e he hek
    omega
  have hget : itmsGet (GC s now) k = itmsGet s k := by
    rw [itmsGet_GC, if_neg hnot]
  refine ⟨hget, by simp [HasKey, hget], by simp [Get, hget], ?_⟩
  intro e he hek
  rw [GC_Exps]
  exact List.mem_filter.mpr ⟨he, by simpa using hlive e he hek⟩

/-- C9 at a concrete run: the entry of `k` expires at 10 and the sweeper runs at
clock 5. -/
theorem GC_never_early_witness :
    runOps GetStore [Op.set "k" [97], Op.exp "k" 10 0, Op.set "j" [98], Op.exp "j" 3 0]
        = some { Itms := some [("j", [[98]]), ("k", [[97]])],
                 Exps := [{ k := "k", ttl := 10 }, { k := "j", ttl := 3 }] }
      ∧ Get (GC { Itms := some [("j", [[98]]), ("k", [[97]])],
                  Exps := [{ k := "k", ttl := 10 }, { k := "j", ttl := 3 }] } 5) "k"
          = Get { Itms := some [("j", [[98]]), ("k", [[97]])],
                  Exps := [{ k := "k", ttl := 10 }, { k := "j", ttl := 3 }] } "k" :=
  ⟨by decide,
    (GC_never_early
      [Op.set "k" [97], Op.exp "k" 10 0, Op.set "j" [98], Op.exp "j" 3 0]
      { Itms := some [("j", [[98]]), ("k", [[97]])],
        Exps := [{ k := "k", ttl := 10 }, { k := "j", ttl := 3 }] }
      (by decide) (by decide) 5 "k"
      (Or.inr ⟨{ k := "k", ttl := 10 }, by decide, by decide, by decide⟩)).2.2.1⟩

/-- C10, as stated, fails: after a load whose file cannot be opened the mapping
is the nil map, and `Append(k,"a")` on that store panics instead of returning
true. -/
theorem App_nil_map_counterexample :
    runOps GetStore [.load openFailed] = some { Itms := none, Exps := [] }
      ∧ App { Itms := none, Exps := [] } "k" [[97]] = none := by
  decide

/-- C10, amended: for every store state with a non-nil mapping, key `k` and
sequence of values `vs`, `Append(k, vs...)` returns true and afterwards `Get(k)`
is the previous value-list of `k` (empty if `k` was absent) followed by `vs` in
order, with every other key and the expiry collection unchanged; in particular
`Set(k, a)` then `Append(k, b, c)` yields `[a, b, c]`. -/
theorem App_accumulates (s : Store) (m : ItemMap) (k : String) (vs : List Bytes)
    (hm : s.Itms = some m) :
    (∃ s', App s k vs = some (s', true)
        ∧ Get s' k = Get s k ++ vs
        ∧ HasKey s' k = true
        ∧ (∀ k', k' ≠ k → itmsGet s' k' = itmsGet s k')
        ∧ s'.Exps = s.Exps)
      ∧ ∀ a b c : Bytes,
          ((Set s k a).bind (fun r => App r.1 k [b, c])).map (fun r => (Get r.1 k, r.2))
            = some ([a, b, c], true) := by
  constructor
  · refine ⟨_, App_eq s m k vs hm, ?_, ?_, ?_, rfl⟩
    · simp [Get, itmsGet, hm, mapGet_mapSet]
    · simp [HasKey, itmsGet, mapGet_mapSet]
    · intro k' hk'
      have : ¬ k = k' := fun x => hk' x.symm
      simp [itmsGet, hm, mapGet_mapSet, this]
  · intro a b c
    rw [Set_eq s m k a hm]
    simp [App, Get, itmsGet, mapGet_mapSet]

/-- C10, amended, at a concrete input: `Set(k,"a")` then `Append(k,"b","c")` on
the empty store. -/
theorem App_accumulates_witness :
    GetStore.Itms = some []
      ∧ ((Set GetStore "k" [97]).bind (fun r => App r.1 "k" [[98], [99]])).map
          (fun r => (Get r.1 "k", r.2)) = some ([[97], [98], [99]], true) :=
  ⟨rfl, (App_accumulates GetStore [] "k" [] rfl).2 [97] [98] [99]⟩

/-! ## What the loop of `DelVal` computes for a non-empty value -/

theorem getD_append_zeros (pre : List Bytes) (d j : Nat) (h : pre.length ≤ j) :
    (pre ++ List.replicate d ([] : Bytes)).getD j [] = [] := by
  rw [List.getD_append_right _ _ _ _ h]
  by_cases hj : j - pre.length < d
  · rw [List.getD_eq_getElem _ _ (by simpa using hj)]
    simp
  · rw [List.getD_eq_default _ _ (by simpa using hj)]

theorem getD_middle (pre rest tail : List Bytes) (x : Bytes) :
    (pre ++ x :: rest ++ tail).getD pre.length [] = x := by
  rw [List.append_assoc, List.getD_append_right _ _ _ _ (le_refl _)]
  simp

theorem delValRemove_middle (pre rest tail : List Bytes) (x : Bytes) :
    delValRemove (pre ++ x :: rest ++ tail) (pre.length + (rest.length + 1)) pre.length
      = pre ++ rest ++ [[]] ++ tail := by
  unfold delValRemove
  have h1 : (pre ++ x :: rest ++ tail).take pre.length = pre := by
    rw [List.append_assoc, List.take_left']
    rfl
  have h2 : (pre ++ x :: rest ++ tail).drop (pre.length + 1) = rest ++ tail := by
    have : pre ++ x :: rest ++ tail = (pre ++ [x]) ++ (rest ++ tail) := by simp
    rw [this, List.drop_left']
    simp
  have h3 : (pre ++ x :: rest ++ tail).drop (pre.length + (rest.length + 1)) = tail := by
    rw [List.drop_left']
    simp
  have h4 : pre.length + (rest.length + 1) - (pre.length + 1) = rest.length := by omega
  rw [h1, h2, h3, h4, List.take_left']
  rfl

theorem delValLoop_tail (v : Bytes) (hv : v ≠ []) :
    ∀ (rem i : Nat) (arr : List Bytes) (len : Nat),
      (∀ j, len ≤ j → arr.getD j [] = []) → len ≤ i →
      delValLoop v rem i arr len = some (arr, len) := by
  intro rem
  induction rem with
  | zero => intro i arr len _ _; rfl
  | succ rem ih =>
    intro i arr len hz hi
    have hne : ¬ arr.getD i [] = v := by
      rw [hz i hi]
      exact fun h => hv h.symm
    rw [delValLoop, if_neg hne]
    exact ih (i + 1) arr len hz (by omega)

theorem delValLoop_skipDel (v : Bytes) (hv : v ≠ []) :
    ∀ (rem : Nat) (pre post : List Bytes) (d : Nat), rem = post.length + d →
      ∃ arr', delValLoop v rem pre.length (pre ++ post ++ List.replicate d [])
                (pre.length + post.length)
              = some (arr', pre.length + (skipDel v post).length)
          ∧ arr'.take (pre.length + (skipDel v post).length) = pre ++ skipDel v post := by
  intro rem
  induction rem with
  | zero =>
    intro pre post d h
    have hp : post = [] := List.eq_nil_of_length_eq_zero (by omega)
    have hd : d = 0 := by omega
    subst hp hd
    refine ⟨pre ++ [] ++ List.replicate 0 [], rfl, ?_⟩
    simp [skipDel]
  | succ rem ih =>
    intro pre post d h
    match post, h with
    | [], _ =>
      refine ⟨pre ++ [] ++ List.replicate d [], ?_, by simp [skipDel]⟩
      have := delValLoop_tail v hv (rem + 1) pre.length (pre ++ [] ++ List.replicate d [])
        (pre.length + ([] : List Bytes).length)
        (fun j hj => by
          rw [List.append_nil]
          exact getD_append_zeros pre d j (by simpa using hj))
        (by simp)
      simpa [skipDel] using this
    | [x], h =>
      have hd : rem = d := by
        simp only [List.length_singleton] at h
        omega
      by_cases hx : x = v
      · have hrem := delValRemove_middle pre [] (List.replicate d []) x
        have hz : ∀ j, pre.length ≤ j →
            (pre ++ [] ++ [[]] ++ List.replicate d ([] : Bytes)).getD j [] = [] := by
          intro j hj
          have e : pre ++ [] ++ [[]] ++ List.replicate d ([] : Bytes)
              = pre ++ List.replicate (d + 1) [] := by
            simp [List.replicate_succ]
          rw [e]
          exact getD_append_zeros pre (d + 1) j hj
        have ht := delValLoop_tail v hv rem (pre.length + 1)
          (pre ++ [] ++ [[]] ++ List.replicate d []) pre.length hz (by omega)
        refine ⟨pre ++ [] ++ [[]] ++ List.replicate d [], ?_, by simp [skipDel, hx]⟩
        rw [delValLoop, getD_middle, if_pos hx, if_pos (by simp)]
        simp only [List.length_nil, Nat.zero_add, List.length_singleton] at hrem ⊢
        rw [hrem]
        simpa [skipDel, hx] using ht
      · have hih := ih (pre ++ [x]) [] d (by simpa using hd)
        obtain ⟨arr', h1, h2⟩ := hih
        refine ⟨arr', ?_, ?_⟩
        · rw [delValLoop, getD_middle, if_neg hx]
          simpa [skipDel, hx, Nat.add_assoc, Nat.add_comm, Nat.add_left_comm] using h1
        · simpa [skipDel, hx, Nat.add_assoc, Nat.add_comm, Nat.add_left_comm] using h2
    | x :: y :: rest, h =>
      have hd : rem = rest.length + 1 + d := by
        simp only [List.length_cons] at h
        omega
      by_cases hx : x = v
      · have hrem := delValRemove_middle pre (y :: rest) (List.replicate d []) x
        have hih := ih (pre ++ [y]) rest (d + 1) (by omega)
        obtain ⟨arr', h1, h2⟩ := hih
        have e : pre ++ [y] ++ rest ++ List.replicate (d + 1) ([] : Bytes)
            = pre ++ y :: rest ++ [[]] ++ List.replicate d [] := by
          simp [List.replicate_succ]
        rw [e] at h1
        refine ⟨arr', ?_, ?_⟩
        · rw [delValLoop, getD_middle, if_pos hx, if_pos (by simp)]
          simp only [List.length_cons] at hrem ⊢
          rw [hrem]
          simp only [List.length_append, List.length_singleton] at h1
          simpa [skipDel, hx, Nat.add_assoc, Nat.add_comm, Nat.add_left_comm] using h1
        · simpa [skipDel, hx, Nat.add_assoc, Nat.add_comm, Nat.add_left_comm] using h2
      · have hih := ih (pre ++ [x]) (y :: rest) d (by simpa using hd)
        obtain ⟨arr', h1, h2⟩ := hih
        refine ⟨arr', ?_, ?_⟩
        · rw [delValLoop, getD_middle, if_neg hx]
          simpa [skipDel, hx, Nat.add_assoc, Nat.add_comm, Nat.add_left_comm] using h1
        · simpa [skipDel, hx, Nat.add_assoc, Nat.add_comm, Nat.add_left_comm] using h2

/-- For a non-empty value the loop of `DelVal` never slices out of range, and
the value-list it leaves is `skipDel`. -/
theorem delValList_eq_skipDel (v : Bytes) (hv : v ≠ []) (L : List Bytes) :
    delValList v L = some (skipDel v L) := by
  obtain ⟨arr', h1, h2⟩ := delValLoop_skipDel v hv L.length [] L 0 rfl
  simp only [List.nil_append, List.length_nil, Nat.zero_add, List.replicate_zero,
    List.append_nil] at h1 h2
  simp [delValList, h1, h2]

theorem skipDel_sublist (v : Bytes) : ∀ L : List Bytes, (skipDel v L).Sublist L
  | [] => List.Sublist.refl _
  | [x] => by
    unfold skipDel
    split
    · exact List.nil_sublist _
    · exact List.Sublist.refl _
  | x :: y :: rest => by
    have ih1 := skipDel_sublist v rest
    have ih2 := skipDel_sublist v (y :: rest)
    unfold skipDel
    split
    · exact List.Sublist.cons _ (List.Sublist.cons₂ _ ih1)
    · exact List.Sublist.cons₂ _ ih2

theorem filter_sublist_skipDel (v : Bytes) :
    ∀ L : List Bytes, (L.filter (fun x => decide (x ≠ v))).Sublist (skipDel v L)
  | [] => List.Sublist.refl _
  | [x] => by
    by_cases hx : x = v
    · simp [skipDel, hx]
    · simp [skipDel, hx]
  | x :: y :: rest => by
    have ih1 := filter_sublist_skipDel v rest
    have ih2 := filter_sublist_skipDel v (y :: rest)
    by_cases hx : x = v
    · by_cases hy : y = v
      · simp only [skipDel, if_pos hx, List.filter_cons, hx, hy, ne_eq, not_true_eq_false,
          decide_False, Bool.false_eq_true, if_false]
        exact List.Sublist.cons _ ih1
      · simp only [skipDel, if_pos hx, List.filter_cons, hx, hy, ne_eq, not_true_eq_false,
          not_false_eq_true, decide_True, decide_False, Bool.false_eq_true, if_false, if_true]
        exact List.Sublist.cons₂ _ ih1
    · have e : (x :: y :: rest).filter (fun x => decide (x ≠ v))
          = x :: (y :: rest).filter (fun x => decide (x ≠ v)) := by
        simp [List.filter_cons, hx]
      rw [e]
      simp only [skipDel, if_neg hx]
      exact List.Sublist.cons₂ _ ih2

theorem filter_skipDel (v : Bytes) :
    ∀ L : List Bytes, (skipDel v L).filter (fun x => decide (x ≠ v))
      = L.filter (fun x => decide (x ≠ v))
  | [] => rfl
  | [x] => by
    by_cases hx : x = v
    · simp [skipDel, hx]
    · simp [skipDel, hx]
  | x :: y :: rest => by
    have ih1 := filter_skipDel v rest
    have ih2 := filter_skipDel v (y :: rest)
    by_cases hx : x = v
    · simp only [skipDel, if_pos hx]
      by_cases hy : y = v
      · simpa [List.filter_cons, hx, hy] using ih1
      · simpa [List.filter_cons, hx, hy] using ih1
    · simp only [skipDel, if_neg hx]
      simp only [List.filter_cons, hx, ne_eq, not_false_eq_true, decide_True, if_true]
      simp only [List.filter_cons] at ih2
      rw [ih2]

theorem skipDel_eq_filter (v : Bytes) :
    ∀ L : List Bytes, L.Chain' (fun a b => ¬ (a = v ∧ b = v)) →
      skipDel v L = L.filter (fun x => decide (x ≠ v))
  | [], _ => rfl
  | [x], _ => by
    by_cases hx : x = v
    · simp [skipDel, hx]
    · simp [skipDel, hx]
  | x :: y :: rest, h => by
    have hxy : ¬ (x = v ∧ y = v) := (List.chain'_cons.mp h).1
    have hyr : (y :: rest).Chain' (fun a b => ¬ (a = v ∧ b = v)) := (List.chain'_cons.mp h).2
    have hr : rest.Chain' (fun a b => ¬ (a = v ∧ b = v)) := hyr.tail
    have ih1 := skipDel_eq_filter v rest hr
    have ih2 := skipDel_eq_filter v (y :: rest) hyr
    by_cases hx : x = v
    · have hy : ¬ y = v := fun hy => hxy ⟨hx, hy⟩
      simp only [skipDel, if_pos hx]
      rw [ih1]
      simp [List.filter_cons, hx, hy]
    · simp only [skipDel, if_neg hx]
      rw [ih2]
      simp [List.filter_cons, hx]

/-! ## Further facts used by the claims on `Set`, `Del`, `Exp`, `TTL`, `GetVal` -/

theorem mapDelete_absent (m : ItemMap) (k : String) (h : mapGet m k = none) :
    mapDelete m k = m := by
  induction m with
  | nil => rfl
  | cons p rest ih =>
    obtain ⟨a, b⟩ := p
    by_cases hak : a = k
    · simp [mapGet, hak] at h
    · simp only [mapGet, if_neg hak] at h
      have := ih h
      simp only [mapDelete] at this ⊢
      rw [List.filter_cons_of_pos (by simpa using hak), this]

theorem filter_key_absent (k : String) (exps : List expItem) (h : k ∉ expKeys exps) :
    exps.filter (fun e => decide (e.k ≠ k)) = exps := by
  rw [List.filter_eq_self]
  intro e he
  have : e.k ≠ k := fun hk => h (List.mem_map.mpr ⟨e, he, hk⟩)
  simpa using this

theorem not_mem_expKeys_filter (k : String) (exps : List expItem) :
    k ∉ expKeys (exps.filter (fun e => decide (e.k ≠ k))) := by
  intro h
  obtain ⟨e, he, hk⟩ := List.mem_map.mp h
  have := (List.mem_filter.mp he).2
  simp [hk] at this

theorem ttlLoop_entries (k : String) (now T : Int) (exps : List expItem)
    (hall : ∀ e ∈ exps, e.k = k → e.ttl = T) (hk : k ∈ expKeys exps) :
    ttlLoop k now exps = wrap64 (T - now) := by
  induction exps with
  | nil => simp [expKeys] at hk
  | cons e rest ih =>
    by_cases he : e.k = k
    · simp only [ttlLoop, if_pos he]
      rw [hall e (List.mem_cons_self _ _) he]
    · simp only [ttlLoop, if_neg he]
      apply ih
      · intro e' he' hk'
        exact hall e' (List.mem_cons_of_mem _ he') hk'
      · simp only [expKeys, List.map_cons, List.mem_cons] at hk
        rcases hk with hk | hk
        · exact absurd hk.symm he
        · exact hk

theorem subRange_length (L : List Bytes) (a b : Int) (ha : 0 ≤ a) (hab : a ≤ b)
    (hb : b ≤ L.length) : (subRange L a b).length = (b - a).toNat := by
  simp only [subRange, List.length_drop, List.length_take]
  omega

theorem subRange_get (L : List Bytes) (a b : Int) (j : Nat) (ha : 0 ≤ a)
    (hj : j < (b - a).toNat) :
    (subRange L a b).get? j = L.get? (a.toNat + j) := by
  simp only [subRange, List.get?_eq_getElem?, List.getElem?_drop]
  rw [List.getElem?_take_of_lt]
  omega

/-! ## The claims on `Set`, `Del`, `Exp`, `TTL`, `GetVal` and `Purge` -/

/-- C11: for every store state with a non-nil mapping, key `k` and value `v`,
`Set(k, v)` returns true; afterwards `Get(k)` is exactly `[v]` whatever `k` held
before, the value-list of every other key is unchanged, and the expiry
collection is unchanged, so `TTL` of every key, read at the same clock, is the
same before and after. -/
theorem Set_replaces (s : Store) (m : ItemMap) (k : String) (v : Bytes)
    (hm : s.Itms = some m) :
    ∃ s', Set s k v = some (s', true)
      ∧ Get s' k = [v]
      ∧ HasKey s' k = true
      ∧ (∀ k', k' ≠ k → itmsGet s' k' = itmsGet s k')
      ∧ s'.Exps = s.Exps
      ∧ ∀ (k' : String) (now : Int), TTL s' k' now = TTL s k' now := by
  refine ⟨_, Set_eq s m k v hm, ?_, ?_, ?_, rfl, fun _ _ => rfl⟩
  · simp [Get, itmsGet, mapGet_mapSet]
  · simp [HasKey, itmsGet, mapGet_mapSet]
  · intro k' hk'
    have : ¬ k = k' := fun x => hk' x.symm
    simp [itmsGet, hm, mapGet_mapSet, this]

/-- C11 at a concrete input: `Set(k,"b")` on a store where `k` holds
`["a","c"]` and expires at 50. -/
theorem Set_replaces_witness :
    ∃ s', Set { Itms := some [("k", [[97], [99]])], Exps := [{ k := "k", ttl := 50 }] } "k" [98]
        = some (s', true)
      ∧ Get s' "k" = [[98]]
      ∧ TTL s' "k" 20 = 30 := by
  obtain ⟨s', h1, h2, _, _, _, h6⟩ :=
    Set_replaces { Itms := some [("k", [[97], [99]])], Exps := [{ k := "k", ttl := 50 }] }
      [("k", [[97], [99]])] "k" [98] rfl
  exact ⟨s', h1, h2, by rw [h6]; decide⟩

/-- C12: for every store state and key `k`, `Delete(k)` returns true; afterwards
`HasKey(k)` is false and no expiry entry of `k` remains, the value-list of
every other key is unchanged, and the expiry entries of the other keys are all
kept, in their order.  On a key that is absent and has no expiry entry it
returns true and leaves the whole state unchanged. -/
theorem Del_removes (s : Store) (k : String) :
    (Del s k).2 = true
      ∧ HasKey (Del s k).1 k = false
      ∧ k ∉ expKeys (Del s k).1.Exps
      ∧ (∀ k', k' ≠ k → itmsGet (Del s k).1 k' = itmsGet s k')
      ∧ (Del s k).1.Exps = s.Exps.filter (fun e => decide (e.k ≠ k))
      ∧ (HasKey s k = false → k ∉ expKeys s.Exps → Del s k = (s, true)) := by
  have hget : itmsGet (Del s k).1 k = none := by
    rw [itmsGet_eq_optGet, Del_Itms, optGet_itmsDelete, if_pos rfl]
  refine ⟨?_, ?_, ?_, ?_, Del_Exps s k, ?_⟩
  · show ((itmsGet (Del s k).1 k).isSome == false) = true
    rw [hget]; rfl
  · simp [HasKey, hget]
  · rw [Del_Exps]
    exact not_mem_expKeys_filter k s.Exps
  · intro k' hk'
    have : ¬ k = k' := fun x => hk' x.symm
    rw [itmsGet_eq_optGet, Del_Itms, optGet_itmsDelete, if_neg this, itmsGet_eq_optGet]
  · intro habs hexp
    have hstate : (Del s k).1 = s := by
      have h1 : (Del s k).1.Exps = s.Exps := by
        rw [Del_Exps, filter_key_absent k s.Exps hexp]
      have h2 : (Del s k).1.Itms = s.Itms := by
        rw [Del_Itms]
        cases hm : s.Itms with
        | none => rfl
        | some m =>
          have : mapGet m k = none := by
            simpa [HasKey, itmsGet, hm] using habs
          simp [itmsDelete, mapDelete_absent m k this]
      cases hs : (Del s k).1 with
      | mk itms exps =>
        cases s with
        | mk itms0 exps0 =>
          rw [hs] at h1 h2
          simp only at h1 h2
          rw [h1, h2]
    have h2 : (Del s k).2 = true := by
      show ((itmsGet (Del s k).1 k).isSome == false) = true
      rw [hget]; rfl
    exact Prod.ext hstate h2

/-- C12 at a concrete input: `Delete(j)` where `j` is absent and has no entry. -/
theorem Del_removes_witness :
    HasKey { Itms := some [("k", [[97]])], Exps := [{ k := "k", ttl := 50 }] } "j" = false
      ∧ Del { Itms := some [("k", [[97]])], Exps := [{ k := "k", ttl := 50 }] } "j"
        = ({ Itms := some [("k", [[97]])], Exps := [{ k := "k", ttl := 50 }] }, true) :=
  ⟨by decide,
    (Del_removes { Itms := some [("k", [[97]])], Exps := [{ k := "k", ttl := 50 }] } "j").2.2.2.2.2
      (by decide) (by decide)⟩

/-- C13: for every store state, key `k`, seconds `n` and clocks `t`, `t'` such
that neither `t + n` nor `t + n - t'` overflows an `int64`: if `k` is present,
`Expire(k, n)` at clock `t` returns true and a following `TTL(k)` at clock `t'`
returns `n - (t' - t)`; if `k` is absent, `Expire(k, n)` returns false and leaves
the state, hence the expiry entries, unchanged; `TTL(k)` is 0 for a key with no
expiry entry.  `TTL` only computes a number from the state. -/
theorem Exp_then_TTL (s : Store) (k : String) (n t t' : Int) :
    (HasKey s k = true → inInt64 (t + n) → inInt64 (t + n - t') →
        (Exp s k n t).2 = true ∧ TTL (Exp s k n t).1 k t' = n - (t' - t))
      ∧ (HasKey s k = false → Exp s k n t = (s, false))
      ∧ (k ∉ expKeys s.Exps → TTL s k t' = 0) := by
  refine ⟨?_, ?_, ?_⟩
  · intro hk h1 h2
    obtain ⟨hmem, hall⟩ := Exp_present_entries s k n t hk
    have hret : (Exp s k n t).2 = true := by
      by_cases hke : k ∈ expKeys s.Exps
      · rw [Exp_present_entry s k n t hk hke]
      · rw [Exp_present_fresh s k n t hk hke]
    refine ⟨hret, ?_⟩
    show ttlLoop k t' (Exp s k n t).1.Exps = n - (t' - t)
    rw [ttlLoop_entries k t' (wrap64 (t + n)) _ hall hmem,
      wrap64_of_range (t + n) h1.1 h1.2, wrap64_of_range (t + n - t') h2.1 h2.2]
    omega
  · intro hk
    apply Exp_absent
    simpa [HasKey] using hk
  · intro hk
    exact ttlLoop_no_entry k t' s.Exps hk

/-- C13 at a concrete input: `Expire(k, 30)` at clock 100, `TTL(k)` at clock
110. -/
theorem Exp_then_TTL_witness :
    HasKey { Itms := some [("k", [[97]])], Exps := [] } "k" = true
      ∧ TTL (Exp { Itms := some [("k", [[97]])], Exps := [] } "k" 30 100).1 "k" 110 = 30 - (110 - 100) :=
  ⟨by decide,
    ((Exp_then_TTL { Itms := some [("k", [[97]])], Exps := [] } "k" 30 100 110).1
      (by decide) (by unfold inInt64; decide) (by unfold inInt64; decide)).2⟩

/-- C14: for every store state and key `k`: when `k` holds `L` and `a >= 0`,
`GetVal(k, a, b)` returns the sub-sequence `L[a..b)` (of length `b - a`, its
`j`-th element being `L[a + j]`) if `a <= b <= len(L)`, and an empty result if
`a > b` or `b > len(L)`; for an absent key, and for any number of indices other
than one or two, the result is empty.  `GetVal` only computes a result from the
state. -/
theorem GetVal_two_indices (s : Store) (k : String) :
    (∀ (L : List Bytes) (a b : Int), itmsGet s k = some L → 0 ≤ a →
        (a ≤ b → b ≤ L.length →
          GetVal s k [a, b] = some (subRange L a b)
            ∧ (subRange L a b).length = (b - a).toNat
            ∧ ∀ j, j < (b - a).toNat → (subRange L a b).get? j = L.get? (a.toNat + j))
        ∧ (b < a ∨ (L.length : Int) < b → GetVal s k [a, b] = some []))
      ∧ (∀ idx : List Int, itmsGet s k = none → GetVal s k idx = some [])
      ∧ (∀ idx : List Int, idx.length ≠ 1 → idx.length ≠ 2 → GetVal s k idx = some []) := by
  refine ⟨?_, ?_, ?_⟩
  · intro L a b hL ha
    constructor
    · intro hab hb
      refine ⟨?_, subRange_length L a b ha hab hb,
        fun j hj => subRange_get L a b j ha hj⟩
      simp only [GetVal, hL]
      rw [if_pos ⟨hab, hb⟩]
      simp only [sliceRange]
      rw [if_pos ⟨ha, hab, hb⟩]
      rfl
    · intro h
      simp only [GetVal, hL]
      rw [if_neg]
      rintro ⟨h1, h2⟩
      omega
  · intro idx h
    simp [GetVal, h]
  · intro idx h1 h2
    cases hg : itmsGet s k with
    | none => simp [GetVal, hg]
    | some L =>
      match idx, h1, h2 with
      | [], _, _ => simp [GetVal, hg]
      | [_], h1, _ => simp at h1
      | [_, _], _, h2 => simp at h2
      | _ :: _ :: _ :: _, _, _ => simp [GetVal, hg]

/-- C14 at a concrete input: a key holding three values; `GetVal(k, 0, 3)`
returns all three and `GetVal(k, 2, 1)` is empty. -/
theorem GetVal_two_indices_witness :
    GetVal { Itms := some [("k", [[97], [98], [99]])], Exps := [] } "k" [0, 3]
        = some [[97], [98], [99]]
      ∧ GetVal { Itms := some [("k", [[97], [98], [99]])], Exps := [] } "k" [2, 1] = some [] :=
  have h := (GetVal_two_indices { Itms := some [("k", [[97], [98], [99]])], Exps := [] } "k").1
    [[97], [98], [99]]
  ⟨((h 0 3 rfl (by decide)).1 (by decide) (by decide)).1,
    (h 2 1 rfl (by decide)).2 (Or.inl (by decide))⟩

/-- C15: for every store state, with any number of keys and of expiry entries,
also entries whose key is not in the mapping, `Purge` returns true and
afterwards the mapping has no key and the expiry collection is empty.  Both
loops end by their own exit test: fuel beyond the number of entries changes
nothing. -/
theorem Purge_complete (s : Store) :
    (Purge s).2 = true
      ∧ (Purge s).1.Exps = []
      ∧ (Purge s).1.Itms = s.Itms.map (fun _ => [])
      ∧ (∀ k, HasKey (Purge s).1 k = false)
      ∧ (∀ k, Get (Purge s).1 k = [])
      ∧ (∀ fuel, s.Exps.length ≤ fuel →
          purgeExpLoop fuel s.Itms s.Exps 0 = purgeExpLoop s.Exps.length s.Itms s.Exps 0)
      ∧ (∀ (m : ItemMap) (fuel : Nat), m.length ≤ fuel →
          purgeMapLoop fuel m = purgeMapLoop m.length m) := by
  have hst := Purge_state s
  have hkey : ∀ k, itmsGet (Purge s).1 k = none := by
    intro k
    rw [hst]
    cases hm : s.Itms <;> simp [itmsGet, mapGet]
  refine ⟨?_, by rw [hst], by rw [hst], ?_, ?_, ?_, ?_⟩
  · have h := purgeExpLoop_append s.Exps [] s.Exps.length s.Itms (le_refl _)
    simp only [List.nil_append, List.length_nil] at h
    simp only [Purge, h]
    cases hd : deleteKeys s.Itms (expKeys s.Exps) with
    | none => simp
    | some m => simp [purgeMapLoop_nil m.length m (le_refl _), mapLen]
  · intro k
    simp [HasKey, hkey k]
  · intro k
    simp [Get, hkey k]
  · intro fuel hf
    exact purgeExpLoop_fuel fuel s.Itms s.Exps hf
  · intro m fuel hf
    rw [purgeMapLoop_nil fuel m hf, purgeMapLoop_nil m.length m (le_refl _)]

/-- C16: for every store state, key `k` and non-empty value `v`, `DelVal(k, v)`
returns normally and its result is true exactly when `k` was present; `HasKey(k)`
is the same after the call as before, an absent key leaves the state unchanged,
and every other key and the expiry collection are unchanged.  A key holding
only `v` stays present with an empty value-list, in particular after
`Set(k, v)` then `DelVal(k, v)`. -/
theorem DelVal_reports_presence (s : Store) (k : String) (v : Bytes) (hv : v ≠ []) :
    (∃ s', DelVal s k v = some (s', HasKey s k)
        ∧ HasKey s' k = HasKey s k
        ∧ (HasKey s k = false → s' = s)
        ∧ (∀ k', k' ≠ k → itmsGet s' k' = itmsGet s k')
        ∧ s'.Exps = s.Exps
        ∧ (itmsGet s k = some [v] → itmsGet s' k = some []))
      ∧ ∀ m, s.Itms = some m →
          ((Set s k v).bind (fun r => DelVal r.1 k v)).map
              (fun r => (r.2, HasKey r.1 k, itmsGet r.1 k))
            = some (true, true, some []) := by
  constructor
  · cases hm : s.Itms with
    | none =>
      refine ⟨s, ?_, rfl, fun _ => rfl, fun _ _ => rfl, rfl, ?_⟩
      · simp [DelVal, hm, HasKey, itmsGet]
      · intro h
        simp [itmsGet, hm] at h
    | some m =>
      cases hg : mapGet m k with
      | none =>
        refine ⟨s, ?_, rfl, fun _ => rfl, fun _ _ => rfl, rfl, ?_⟩
        · simp [DelVal, hm, hg, HasKey, itmsGet]
        · intro h
          simp [itmsGet, hm, hg] at h
      | some L =>
        refine ⟨{ s with Itms := some (mapSet m k (skipDel v L)) }, ?_, ?_, ?_, ?_, rfl, ?_⟩
        · simp [DelVal, hm, hg, delValList_eq_skipDel v hv L, HasKey, itmsGet]
        · simp [HasKey, itmsGet, hm, hg, mapGet_mapSet]
        · intro h
          simp [HasKey, itmsGet, hm, hg] at h
        · intro k' hk'
          have : ¬ k = k' := fun x => hk' x.symm
          simp [itmsGet, hm, mapGet_mapSet, this]
        · intro h
          have hL : L = [v] := by
            simpa [itmsGet, hm, hg] using h
          simp [itmsGet, mapGet_mapSet, hL, skipDel]
  · intro m hm
    rw [Set_eq s m k v hm]
    have hsk : skipDel v [v] = [] := by simp [skipDel]
    simp [DelVal, mapGet_mapSet, delValList_eq_skipDel v hv, hsk, HasKey, itmsGet]

/-- C16 at a concrete input: `Set(k,"x")` then `DelVal(k,"x")` on the empty
store. -/
theorem DelVal_reports_presence_witness :
    ([120] : Bytes) ≠ []
      ∧ ((Set GetStore "k" [120]).bind (fun r => DelVal r.1 "k" [120])).map
          (fun r => (r.2, HasKey r.1 "k", itmsGet r.1 "k"))
        = some (true, true, some []) :=
  ⟨by decide, (DelVal_reports_presence GetStore "k" [120] (by decide)).2 [] rfl⟩

/-! ## The `getval` command, and `DelVal` against a filter -/

theorem getvalLoop_eq (atoi : Bytes → Int) (args : List Bytes) :
    ∀ (fuel i : Nat) (ns : List Int), (args.drop 2).length - i ≤ fuel →
      getvalLoop atoi args fuel i ns
        = ns ++ (List.range' i ((args.drop 2).length - i)).map
            (fun j => atoi (args.getD j [])) := by
  intro fuel
  induction fuel with
  | zero =>
    intro i ns h
    have : (args.drop 2).length - i = 0 := by omega
    rw [this]
    simp [getvalLoop]
  | succ fuel ih =>
    intro i ns h
    by_cases hi : i < (args.drop 2).length
    · rw [getvalLoop, if_pos hi, ih (i + 1) _ (by omega)]
      have e : (args.drop 2).length - i = ((args.drop 2).length - (i + 1)) + 1 := by omega
      rw [e, List.range'_succ]
      simp
    · have : (args.drop 2).length - i = 0 := by omega
      rw [getvalLoop, if_neg hi, this]
      simp

theorem map_range_getD (f : Bytes → Int) (args : List Bytes) :
    ∀ (cnt i : Nat), i + cnt ≤ args.length →
      (List.range' i cnt).map (fun j => f (args.getD j []))
        = ((args.drop i).take cnt).map f := by
  intro cnt
  induction cnt with
  | zero => intro i _; simp
  | succ cnt ih =>
    intro i h
    have hi : i < args.length := by omega
    rw [List.range'_succ, List.map_cons, ih (i + 1) (by omega),
      List.drop_eq_getElem_cons hi, List.take_succ_cons, List.map_cons,
      List.getD_eq_getElem _ _ hi]

/-- The index list built by the `getval` case from the command line
`cmd key i1 ... im`: the last two index arguments are left out. -/
theorem getvalNs_eq (atoi : Bytes → Int) (cmd key : Bytes) (idx : List Bytes) :
    getvalNs atoi (cmd :: key :: idx) = (idx.take (idx.length - 2)).map atoi := by
  unfold getvalNs
  rw [getvalLoop_eq atoi _ _ 2 [] (by simp; omega)]
  simp only [List.nil_append, List.drop_succ_cons, List.drop_zero]
  by_cases h : 2 ≤ idx.length
  · rw [map_range_getD atoi _ (idx.length - 2) 2 (by simp; omega)]
    simp
  · have e : idx.length - 2 = 0 := by omega
    simp [e]

/-- C19 (the code departs from the claim): the loop that collects the indices
is `for i := 2; i < len(args[2:]); i++`, so from `getval <key> <i1> ... <im>` it
passes only `[i1, ..., i(m-2)]` to `Store.GetVal`.  On a key holding three
values, `getval k 0 3` and `getval k 1` both call `GetVal` with no index and
reply with no value, where `GetVal(k, 0, 3)` gives the three values and
`GetVal(k, 1)` the second one. -/
theorem getval_drops_last_two_indices :
    (∀ (atoi : Bytes → Int) (cmd key : Bytes) (idx : List Bytes),
        getvalNs atoi (cmd :: key :: idx) = (idx.take (idx.length - 2)).map atoi)
      ∧ getvalNs atoiDigits [[103, 101, 116, 118, 97, 108], [107], [48], [51]] = []
      ∧ getvalCase atoiDigits { Itms := some [("k", [[97], [98], [99]])], Exps := [] } "k"
          [[103, 101, 116, 118, 97, 108], [107], [48], [51]] = some []
      ∧ GetVal { Itms := some [("k", [[97], [98], [99]])], Exps := [] } "k" [0, 3]
          = some [[97], [98], [99]]
      ∧ getvalCase atoiDigits { Itms := some [("k", [[97], [98], [99]])], Exps := [] } "k"
          [[103, 101, 116, 118, 97, 108], [107], [49]] = some []
      ∧ GetVal { Itms := some [("k", [[97], [98], [99]])], Exps := [] } "k" [1]
          = some [[98]] :=
  ⟨getvalNs_eq, by decide, by decide, by decide, by decide, by decide⟩

/-- C20: for every key `k` present with value-list `L` and every non-empty value
`v`, `DelVal(k, v)` completes without an out-of-range access and returns true;
the value-list it leaves is a subsequence of `L` that keeps every element of `L`
different from `v`, in the original order; and when no two consecutive elements
of `L` are both equal to `v`, it is exactly `L` with the elements equal to `v`
filtered out. -/
theorem DelVal_agrees_with_filter (s : Store) (m : ItemMap) (k : String) (L : List Bytes)
    (v : Bytes) (hm : s.Itms = some m) (hL : mapGet m k = some L) (hv : v ≠ []) :
    ∃ s' L', DelVal s k v = some (s', true)
      ∧ itmsGet s' k = some L'
      ∧ L'.Sublist L
      ∧ (L.filter (fun x => decide (x ≠ v))).Sublist L'
      ∧ L'.filter (fun x => decide (x ≠ v)) = L.filter (fun x => decide (x ≠ v))
      ∧ (L.Chain' (fun a b => ¬ (a = v ∧ b = v)) → L' = L.filter (fun x => decide (x ≠ v))) := by
  refine ⟨{ s with Itms := some (mapSet m k (skipDel v L)) }, skipDel v L, ?_, ?_,
    skipDel_sublist v L, filter_sublist_skipDel v L, filter_skipDel v L,
    skipDel_eq_filter v L⟩
  · simp [DelVal, hm, hL, delValList_eq_skipDel v hv L]
  · simp [itmsGet, mapGet_mapSet]

/-- C20 at a concrete input: `["x","y","x"]` with no two adjacent `"x"`. -/
theorem DelVal_agrees_with_filter_witness :
    ∃ s' L', DelVal { Itms := some [("k", [[120], [121], [120]])], Exps := [] } "k" [120]
        = some (s', true)
      ∧ itmsGet s' "k" = some L'
      ∧ L' = [[121]] := by
  obtain ⟨s', L', h1, h2, _, _, _, h6⟩ := DelVal_agrees_with_filter
    { Itms := some [("k", [[120], [121], [120]])], Exps := [] }
    [("k", [[120], [121], [120]])] "k" [[120], [121], [120]] [120] rfl rfl (by decide)
  exact ⟨s', L', h1, h2, by rw [h6 (by simp)]; decide⟩

/-! ## Goroutines: bookkeeping on the list of goroutines -/

theorem getElem?_set_at (l : List Thread) (i j : Nat) (t a : Thread) (h : l[i]? = some t) :
    (l.set i a)[j]? = if j = i then some a else l[j]? := by
  have hi : i < l.length := (List.getElem?_eq_some.mp h).1
  rw [List.getElem?_set]
  by_cases hij : i = j
  · subst hij
    simp [hi]
  · have : ¬ j = i := fun e => hij e.symm
    simp [hij, this]

theorem map_call_set (l : List Thread) (i : Nat) (t : Thread) (pc : Pc) (h : l[i]? = some t) :
    (l.set i { t with pc := pc }).map (fun t => t.call) = l.map (fun t => t.call) := by
  induction l generalizing i with
  | nil => rfl
  | cons a l ih =>
    cases i with
    | zero =>
      simp only [List.getElem?_cons_zero, Option.some.injEq] at h
      subst h
      rfl
    | succ i =>
      simp only [List.getElem?_cons_succ] at h
      simp only [List.set_cons_succ, List.map_cons, ih i h]

theorem storedVals_set_same (l : List Thread) (i : Nat) (t a : Thread) (h : l[i]? = some t)
    (hv : a.storedVal = t.storedVal) : storedVals (l.set i a) = storedVals l := by
  induction l generalizing i with
  | nil => rfl
  | cons b l ih =>
    cases i with
    | zero =>
      simp only [List.getElem?_cons_zero, Option.some.injEq] at h
      subst h
      simp only [storedVals, List.set_cons_zero, List.filterMap_cons, hv]
    | succ i =>
      simp only [List.getElem?_cons_succ] at h
      have := ih i h
      simp only [storedVals] at this
      simp only [storedVals, List.set_cons_succ, List.filterMap_cons, this]

theorem storedVals_set_new (l : List Thread) (i : Nat) (t a : Thread) (v : Bytes)
    (h : l[i]? = some t) (ht : t.storedVal = none) (ha : a.storedVal = some v) :
    (storedVals (l.set i a)).Perm (v :: storedVals l) := by
  induction l generalizing i with
  | nil => simp at h
  | cons b l ih =>
    cases i with
    | zero =>
      simp only [List.getElem?_cons_zero, Option.some.injEq] at h
      subst h
      simp only [storedVals, List.set_cons_zero, List.filterMap_cons, ha, ht]
      exact List.Perm.refl _
    | succ i =>
      simp only [List.getElem?_cons_succ] at h
      have := ih i h
      simp only [storedVals] at this
      simp only [storedVals, List.set_cons_succ, List.filterMap_cons]
      cases hb : b.storedVal with
      | none => simpa using this
      | some w =>
        simp only
        exact (List.Perm.cons w this).trans (List.Perm.swap v w _)

theorem storedVals_done (l : List Thread)
    (h : ∀ t ∈ l, t.pc.isDone = true ∧ t.wf = true) :
    storedVals l = slotValues (l.map (fun t => t.call)) := by
  induction l with
  | nil => rfl
  | cons a l ih =>
    have ha := h a (List.mem_cons_self _ _)
    have ih' := ih (fun t ht => h t (List.mem_cons_of_mem _ ht))
    simp only [storedVals] at ih'
    obtain ⟨call, pc⟩ := a
    cases call <;> cases pc <;>
      simp_all [storedVals, Thread.storedVal, slotValues, Pc.isDone, Thread.wf]

/-! ## Goroutines: one statement keeps the invariant -/

theorem Inv.others_outside {k : String} {s0 : Store} {calls : List Slot} {c : Config}
    (hinv : Inv k s0 calls c) {i : Nat} {t : Thread} (ht : c.threads[i]? = some t)
    (h1 : t.pc.inside = true ∨ c.mu = false) {j : Nat} {tj : Thread}
    (hj : c.threads[j]? = some tj) (hne : j ≠ i) : tj.pc.inside = false := by
  cases hin : tj.pc.inside with
  | false => rfl
  | true =>
    rcases h1 with h1 | h1
    · exact absurd (hinv.excl j i tj t hj ht hin h1) hne
    · have : c.mu = true := hinv.held.mpr ⟨j, tj, hj, hin⟩
      rw [h1] at this
      exact absurd this (by decide)

/-- A statement of goroutine `i` that moves it to `pc'` and leaves the store
`st'` and the mutex `mu'`: what is left to check for the invariant. -/
theorem Inv.move {k : String} {s0 : Store} {calls : List Slot} {c : Config}
    (hinv : Inv k s0 calls c) {i : Nat} {t : Thread} (ht : c.threads[i]? = some t)
    (st' : Store) (mu' : Bool) (pc' : Pc)
    (h1 : t.pc.inside = true ∨ c.mu = false)
    (h2 : mu' = pc'.inside)
    (hwf : ({ t with pc := pc' } : Thread).wf = true)
    (hitms : ∃ m, st'.Itms = some m)
    (hexps : ∀ e ∈ st'.Exps, e ∈ c.store.Exps)
    (hvals : ∃ L, Get st' k = Get s0 k ++ L
      ∧ L.Perm (storedVals (c.threads.set i { t with pc := pc' })))
    (hloaded : ∀ tmp, pc' = Pc.loaded tmp → tmp = (itmsGet st' k).getD [])
    (hpresent : pc' = Pc.stored → HasKey st' k = true)
    (hoks : ∀ ok, (pc' = Pc.checked ok ∨ pc' = Pc.returned ok) → ok = true) :
    Inv k s0 calls
      { store := st', mu := mu', threads := c.threads.set i { t with pc := pc' } } := by
  have hget : ∀ j, (c.threads.set i { t with pc := pc' })[j]?
      = if j = i then some { t with pc := pc' } else c.threads[j]? :=
    fun j => getElem?_set_at c.threads i j t _ ht
  have hout : ∀ j tj, c.threads[j]? = some tj → j ≠ i → tj.pc.inside = false :=
    fun j tj hj hne => hinv.others_outside ht h1 hj hne
  refine
    { calls_eq := ?_, wf := ?_, itms := hitms, exps := ?_, excl := ?_, held := ?_,
      vals := hvals, loaded := ?_, present := ?_, oks := ?_ }
  · show (c.threads.set i { t with pc := pc' }).map (fun t => t.call) = calls
    rw [map_call_set c.threads i t pc' ht]
    exact hinv.calls_eq
  · intro j tj hj
    simp only [hget j] at hj
    split at hj
    · cases hj
      exact hwf
    · exact hinv.wf j tj hj
  · intro e he hek now hnow
    exact hinv.exps e (hexps e he) hek now hnow
  · intro j1 j2 t1 t2 hj1 hj2 hin1 hin2
    simp only [hget j1] at hj1
    simp only [hget j2] at hj2
    by_cases e1 : j1 = i
    · by_cases e2 : j2 = i
      · rw [e1, e2]
      · rw [if_neg e2] at hj2
        rw [hout j2 t2 hj2 e2] at hin2
        exact absurd hin2 (by decide)
    · rw [if_neg e1] at hj1
      rw [hout j1 t1 hj1 e1] at hin1
      exact absurd hin1 (by decide)
  · show mu' = true ↔ _
    constructor
    · intro hmu
      refine ⟨i, { t with pc := pc' }, ?_, ?_⟩
      · simp [hget i]
      · show pc'.inside = true
        rw [← h2]; exact hmu
    · rintro ⟨j, tj, hj, hin⟩
      simp only [hget j] at hj
      by_cases e : j = i
      · rw [if_pos e] at hj
        cases hj
        rw [h2]
        exact hin
      · rw [if_neg e] at hj
        rw [hout j tj hj e] at hin
        exact absurd hin (by decide)
  · intro j tj tmp hj hpc
    simp only [hget j] at hj
    by_cases e : j = i
    · rw [if_pos e] at hj
      cases hj
      exact hloaded tmp hpc
    · rw [if_neg e] at hj
      have := hout j tj hj e
      rw [hpc] at this
      simp [Pc.inside] at this
  · intro j tj hj hpc
    simp only [hget j] at hj
    by_cases e : j = i
    · rw [if_pos e] at hj
      cases hj
      exact hpresent hpc
    · rw [if_neg e] at hj
      have := hout j tj hj e
      rw [hpc] at this
      exact absurd this (by decide)
  · intro j tj ok hj hpc
    simp only [hget j] at hj
    by_cases e : j = i
    · rw [if_pos e] at hj
      cases hj
      exact hoks ok hpc
    · rw [if_neg e] at hj
      exact hinv.oks j tj ok hj hpc

theorem mem_sweepClocks (calls : List Slot) (now : Int) (h : Slot.sweep now ∈ calls) :
    now ∈ sweepClocks calls := by
  induction calls with
  | nil => simp at h
  | cons a rest ih =>
    cases a with
    | append v =>
      simp only [List.mem_cons] at h
      rcases h with h | h
      · cases h
      · simpa [sweepClocks] using ih h
    | sweep t =>
      simp only [List.mem_cons] at h
      rcases h with h | h
      · cases h
        simp [sweepClocks]
      · simp [sweepClocks, ih h]

theorem Inv.clock_mem {k : String} {s0 : Store} {calls : List Slot} {c : Config}
    (hinv : Inv k s0 calls c) {i : Nat} {pc : Pc} {now : Int}
    (ht : c.threads[i]? = some { call := Slot.sweep now, pc := pc }) :
    now ∈ sweepClocks calls := by
  apply mem_sweepClocks
  rw [← hinv.calls_eq]
  obtain ⟨h, e⟩ := List.getElem?_eq_some.mp ht
  exact List.mem_map.mpr ⟨_, List.getElem_mem h, by rw [e]⟩

theorem Inv.same_store {k : String} {s0 : Store} {calls : List Slot} {c : Config}
    (hinv : Inv k s0 calls c) {i : Nat} {t : Thread} (ht : c.threads[i]? = some t)
    (pc' : Pc) (hv : ({ t with pc := pc' } : Thread).storedVal = t.storedVal) :
    ∃ L, Get c.store k = Get s0 k ++ L
      ∧ L.Perm (storedVals (c.threads.set i { t with pc := pc' })) := by
  obtain ⟨L, h1, h2⟩ := hinv.vals
  refine ⟨L, h1, ?_⟩
  rw [storedVals_set_same c.threads i t _ ht hv]
  exact h2

theorem stepThread_Inv {k : String} {s0 : Store} {calls : List Slot} {c : Config}
    (hinv : Inv k s0 calls c) {i : Nat} {t : Thread} (ht : c.threads[i]? = some t) :
    ∃ c', stepThread k c i t = some c' ∧ Inv k s0 calls c' := by
  have hsub : ∀ e ∈ c.store.Exps, e ∈ c.store.Exps := fun _ h => h
  have hmu : t.pc.inside = true → c.mu = true := fun h => hinv.held.mpr ⟨i, t, ht, h⟩
  obtain ⟨call, pc⟩ := t
  cases call with
  | append v =>
    cases pc with
    | start =>
      cases hm : c.mu with
      | true => exact ⟨c, by simp [stepThread, hm], hinv⟩
      | false =>
        refine ⟨_, by simp [stepThread, hm]; rfl, ?_⟩
        exact hinv.move ht c.store true Pc.locked (Or.inr hm) rfl rfl hinv.itms hsub
          (hinv.same_store ht _ rfl) (by simp) (by simp) (by simp)
    | locked =>
      refine ⟨_, by simp [stepThread]; rfl, ?_⟩
      exact hinv.move ht c.store c.mu _ (Or.inl rfl) (hmu rfl) rfl hinv.itms hsub
        (hinv.same_store ht _ rfl) (by intro tmp h; cases h; rfl) (by simp) (by simp)
    | loaded tmp =>
      obtain ⟨m, hm⟩ := hinv.itms
      have htmp := hinv.loaded i _ tmp ht rfl
      refine ⟨_, by simp [stepThread, hm]; rfl, ?_⟩
      refine hinv.move ht _ c.mu Pc.stored (Or.inl rfl) (hmu rfl) rfl ⟨_, rfl⟩ hsub ?_
        (by simp) (by intro _; simp [HasKey, itmsGet, mapGet_mapSet]) (by simp)
      obtain ⟨L, h1, h2⟩ := hinv.vals
      refine ⟨L ++ [v], ?_, ?_⟩
      · have : Get c.store k = tmp := by rw [htmp]; rfl
        rw [← List.append_assoc, ← h1, this]
        simp [Get, itmsGet, mapGet_mapSet]
      · have hp := storedVals_set_new c.threads i _
          ({ call := Slot.append v, pc := Pc.stored } : Thread) v ht rfl rfl
        exact (List.perm_append_singleton v L).trans ((List.Perm.cons v h2).trans hp.symm)
    | stored =>
      have hp := hinv.present i _ ht rfl
      refine ⟨_, by simp [stepThread]; rfl, ?_⟩
      refine hinv.move ht c.store c.mu _ (Or.inl rfl) (hmu rfl) rfl hinv.itms hsub
        (hinv.same_store ht _ rfl) (by simp) (by simp) ?_
      intro ok h
      rcases h with h | h
      · cases h
        exact hp
      · cases h
    | checked ok =>
      have hok := hinv.oks i _ ok ht (Or.inl rfl)
      refine ⟨_, by simp [stepThread]; rfl, ?_⟩
      refine hinv.move ht c.store false (Pc.returned ok) (Or.inl rfl) rfl rfl hinv.itms hsub
        (hinv.same_store ht _ rfl) (by simp) (by simp) ?_
      intro ok' h
      rcases h with h | h
      · cases h
      · cases h
        exact hok
    | returned ok => exact ⟨c, by simp [stepThread], hinv⟩
    | scanning j => exact ⟨c, by simp [stepThread], hinv⟩
    | swept => exact ⟨c, by simp [stepThread], hinv⟩
    | finished => exact ⟨c, by simp [stepThread], hinv⟩
  | sweep now =>
    cases pc with
    | start =>
      cases hm : c.mu with
      | true => exact ⟨c, by simp [stepThread, hm], hinv⟩
      | false =>
        refine ⟨_, by simp [stepThread, hm]; rfl, ?_⟩
        exact hinv.move ht c.store true Pc.locked (Or.inr hm) rfl rfl hinv.itms hsub
          (hinv.same_store ht _ rfl) (by simp) (by simp) (by simp)
    | locked =>
      by_cases hlen : 0 < c.store.Exps.length
      · refine ⟨_, by simp only [stepThread, if_pos hlen]; rfl, ?_⟩
        exact hinv.move ht c.store c.mu _ (Or.inl rfl) (hmu rfl) rfl hinv.itms hsub
          (hinv.same_store ht _ rfl) (by simp) (by simp) (by simp)
      · refine ⟨_, by simp only [stepThread, if_neg hlen]; rfl, ?_⟩
        exact hinv.move ht c.store c.mu _ (Or.inl rfl) (hmu rfl) rfl hinv.itms hsub
          (hinv.same_store ht _ rfl) (by simp) (by simp) (by simp)
    | scanning j =>
      by_cases hj : j < c.store.Exps.length
      · by_cases hdue : (c.store.Exps.get ⟨j, hj⟩).ttl ≤ now
        · refine ⟨_, by simp only [stepThread, dif_pos hj, if_pos hdue]; rfl, ?_⟩
          have hmem : c.store.Exps.get ⟨j, hj⟩ ∈ c.store.Exps := List.get_mem _ _ _
          have hkey : (c.store.Exps.get ⟨j, hj⟩).k ≠ k := by
            intro hk
            have := hinv.exps _ hmem hk now (hinv.clock_mem ht)
            omega
          obtain ⟨m, hm⟩ := hinv.itms
          refine hinv.move ht _ c.mu (Pc.scanning j) (Or.inl rfl) (hmu rfl) rfl
            ⟨mapDelete m (c.store.Exps.get ⟨j, hj⟩).k, by simp [hm, itmsDelete]⟩ ?_ ?_ (by simp) (by simp) (by simp)
          · intro e he
            rcases List.mem_append.mp he with h | h
            · exact List.mem_of_mem_take h
            · exact List.mem_of_mem_drop h
          · obtain ⟨L, h1, h2⟩ := hinv.same_store ht (Pc.scanning j) rfl
            refine ⟨L, ?_, h2⟩
            rw [← h1]
            simp only [Get, itmsGet_eq_optGet, optGet_itmsDelete, if_neg hkey]
        · refine ⟨_, by simp only [stepThread, dif_pos hj, if_neg hdue]; rfl, ?_⟩
          exact hinv.move ht c.store c.mu _ (Or.inl rfl) (hmu rfl) rfl hinv.itms hsub
            (hinv.same_store ht _ rfl) (by simp) (by simp) (by simp)
      · refine ⟨_, by simp only [stepThread, dif_neg hj]; rfl, ?_⟩
        exact hinv.move ht c.store c.mu _ (Or.inl rfl) (hmu rfl) rfl hinv.itms hsub
          (hinv.same_store ht _ rfl) (by simp) (by simp) (by simp)
    | swept =>
      refine ⟨_, by simp [stepThread]; rfl, ?_⟩
      exact hinv.move ht c.store false Pc.finished (Or.inl rfl) rfl rfl hinv.itms hsub
        (hinv.same_store ht _ rfl) (by simp) (by simp) (by simp)
    | loaded tmp => exact ⟨c, by simp [stepThread], hinv⟩
    | stored => exact ⟨c, by simp [stepThread], hinv⟩
    | checked ok => exact ⟨c, by simp [stepThread], hinv⟩
    | returned ok => exact ⟨c, by simp [stepThread], hinv⟩
    | finished => exact ⟨c, by simp [stepThread], hinv⟩

theorem stepAt_Inv {k : String} {s0 : Store} {calls : List Slot} {c : Config}
    (hinv : Inv k s0 calls c) (i : Nat) :
    ∃ c', stepAt k c i = some c' ∧ Inv k s0 calls c' := by
  unfold stepAt
  cases ht : c.threads[i]? with
  | none => exact ⟨c, rfl, hinv⟩
  | some t => exact stepThread_Inv hinv ht

theorem runSched_Inv {k : String} {s0 : Store} {calls : List Slot} (sched : List Nat) :
    ∀ c : Config, Inv k s0 calls c →
      ∃ c', runSched k c sched = some c' ∧ Inv k s0 calls c' := by
  induction sched with
  | nil => intro c hinv; exact ⟨c, rfl, hinv⟩
  | cons i sched ih =>
    intro c hinv
    obtain ⟨c1, h1, hinv1⟩ := stepAt_Inv hinv i
    obtain ⟨c2, h2, hinv2⟩ := ih c1 hinv1
    exact ⟨c2, by simp [runSched, h1, h2], hinv2⟩

theorem storedVals_start (calls : List Slot) :
    storedVals (calls.map (fun call => ({ call := call, pc := Pc.start } : Thread))) = [] := by
  induction calls with
  | nil => rfl
  | cons a rest ih =>
    simp only [storedVals] at ih
    cases a <;> simp [storedVals, List.filterMap_cons, Thread.storedVal, ih]

theorem startConfig_Inv (k : String) (s : Store) (m : ItemMap) (calls : List Slot)
    (hm : s.Itms = some m)
    (hk : ∀ e ∈ s.Exps, e.k = k → ∀ now ∈ sweepClocks calls, now < e.ttl) :
    Inv k s calls (startConfig s calls) := by
  have hstart : ∀ (i : Nat) (t : Thread), (startConfig s calls).threads[i]? = some t →
      t.pc = Pc.start := by
    intro i t ht
    have hmem := List.getElem?_mem ht
    simp only [startConfig, List.mem_map] at hmem
    obtain ⟨call, _, rfl⟩ := hmem
    rfl
  have hvals : storedVals (startConfig s calls).threads = [] :=
    storedVals_start calls
  refine
    { calls_eq := ?_, wf := ?_, itms := ⟨m, hm⟩, exps := hk, excl := ?_, held := ?_,
      vals := ⟨[], by simp [startConfig], by rw [hvals]⟩, loaded := ?_, present := ?_,
      oks := ?_ }
  · simp [startConfig, List.map_map, Function.comp_def]
  · intro i t ht
    have hpc := hstart i t ht
    obtain ⟨call, pc⟩ := t
    simp only at hpc
    subst hpc
    cases call <;> rfl
  · intro i j ti tj hi _ hin _
    rw [hstart i ti hi] at hin
    exact absurd hin (by decide)
  · constructor
    · intro h
      simp [startConfig] at h
    · rintro ⟨i, t, ht, hin⟩
      rw [hstart i t ht] at hin
      exact absurd hin (by decide)
  · intro i t tmp ht hpc
    rw [hstart i t ht] at hpc
    cases hpc
  · intro i t ht hpc
    rw [hstart i t ht] at hpc
    cases hpc
  · intro i t ok ht hpc
    rw [hstart i t ht] at hpc
    rcases hpc with h | h <;> cases h

theorem Inv.final {k : String} {s0 : Store} {calls : List Slot} {c : Config}
    (hinv : Inv k s0 calls c) (hdone : allDone c = true) :
    c.mu = false ∧ allTrue c = true
      ∧ ∃ L, Get c.store k = Get s0 k ++ L ∧ L.Perm (slotValues calls) := by
  have hd : ∀ t ∈ c.threads, t.pc.isDone = true := by
    simpa [allDone] using hdone
  refine ⟨?_, ?_, ?_⟩
  · cases hmu : c.mu with
    | false => rfl
    | true =>
      obtain ⟨i, t, ht, hin⟩ := hinv.held.mp hmu
      have := hd t (List.getElem?_mem ht)
      obtain ⟨call, pc⟩ := t
      cases pc <;> simp_all [Pc.inside, Pc.isDone]
  · simp only [allTrue, List.all_eq_true]
    intro t ht
    obtain ⟨i, hi, hget⟩ := List.getElem_of_mem ht
    have hsome : c.threads[i]? = some t := by
      rw [List.getElem?_eq_getElem hi, hget]
    cases hpc : t.pc with
    | returned ok => exact hinv.oks i t ok hsome (Or.inr hpc)
    | _ => rfl
  · obtain ⟨L, h1, h2⟩ := hinv.vals
    refine ⟨L, h1, ?_⟩
    have hsv := storedVals_done c.threads (fun t ht => by
      obtain ⟨i, hi, hget⟩ := List.getElem_of_mem ht
      have hsome : c.threads[i]? = some t := by
        rw [List.getElem?_eq_getElem hi, hget]
      exact ⟨hd t ht, hinv.wf i t hsome⟩)
    rw [hsv, hinv.calls_eq] at h2
    exact h2

theorem Config.ne_of_thread {c c' : Config} {i : Nat} {t t' : Thread}
    (h : c.threads[i]? = some t) (h' : c'.threads[i]? = some t') (hne : t' ≠ t) : c' ≠ c := by
  intro e
  rw [e, h] at h'
  exact hne (Option.some.inj h').symm

/-- While some goroutine has not returned, the scheduler can pick one whose
next statement changes the configuration: no goroutine waits for ever. -/
theorem Inv.progress {k : String} {s0 : Store} {calls : List Slot} {c : Config}
    (hinv : Inv k s0 calls c) (hnot : allDone c = false) :
    ∃ i c', stepAt k c i = some c' ∧ c' ≠ c := by
  cases hmu : c.mu with
  | false =>
    have hex : ∃ t ∈ c.threads, t.pc.isDone = false := by
      by_contra hcon
      have : allDone c = true := by
        simp only [allDone, List.all_eq_true]
        intro t ht
        cases hd : t.pc.isDone with
        | true => rfl
        | false => exact absurd ⟨t, ht, hd⟩ hcon
      rw [this] at hnot
      exact absurd hnot (by decide)
    obtain ⟨t, htmem, hd⟩ := hex
    obtain ⟨i, hi, hget⟩ := List.getElem_of_mem htmem
    have ht : c.threads[i]? = some t := by rw [List.getElem?_eq_getElem hi, hget]
    have hin : t.pc.inside = false := by
      cases h : t.pc.inside with
      | false => rfl
      | true =>
        have := hinv.held.mpr ⟨i, t, ht, h⟩
        rw [hmu] at this
        exact absurd this (by decide)
    obtain ⟨call, pc⟩ := t
    have hpc : pc = Pc.start := by
      cases pc <;> simp_all [Pc.inside, Pc.isDone]
    subst hpc
    refine ⟨i, { store := c.store, mu := true,
                 threads := c.threads.set i { call := call, pc := Pc.locked } }, ?_, ?_⟩
    · cases call <;> simp [stepAt, ht, stepThread, hmu]
    · intro e
      have := congrArg Config.mu e
      simp [hmu] at this
  | true =>
    obtain ⟨i, t, ht, hin⟩ := hinv.held.mp hmu
    have hwf := hinv.wf i t ht
    have hget : ∀ a : Thread, (c.threads.set i a)[i]? = some a := by
      intro a
      rw [getElem?_set_at c.threads i i t a ht, if_pos rfl]
    obtain ⟨call, pc⟩ := t
    cases call with
    | append v =>
      cases pc with
      | locked =>
        refine ⟨i, _, by simp only [stepAt, ht, stepThread]; rfl, ?_⟩
        exact Config.ne_of_thread ht (hget _) (by simp)
      | loaded tmp =>
        obtain ⟨m, hm⟩ := hinv.itms
        refine ⟨i, _, by simp only [stepAt, ht, stepThread, hm]; rfl, ?_⟩
        exact Config.ne_of_thread ht (hget _) (by simp)
      | stored =>
        refine ⟨i, _, by simp only [stepAt, ht, stepThread]; rfl, ?_⟩
        exact Config.ne_of_thread ht (hget _) (by simp)
      | checked ok =>
        refine ⟨i, _, by simp only [stepAt, ht, stepThread]; rfl, ?_⟩
        exact Config.ne_of_thread ht (hget _) (by simp)
      | start => simp [Pc.inside] at hin
      | returned ok => simp [Pc.inside] at hin
      | scanning j => simp [Thread.wf] at hwf
      | swept => simp [Thread.wf] at hwf
      | finished => simp [Pc.inside] at hin
    | sweep now =>
      cases pc with
      | locked =>
        by_cases hlen : 0 < c.store.Exps.length
        · refine ⟨i, _, by simp only [stepAt, ht, stepThread, if_pos hlen]; rfl, ?_⟩
          exact Config.ne_of_thread ht (hget _) (by simp)
        · refine ⟨i, _, by simp only [stepAt, ht, stepThread, if_neg hlen]; rfl, ?_⟩
          exact Config.ne_of_thread ht (hget _) (by simp)
      | scanning j =>
        by_cases hj : j < c.store.Exps.length
        · by_cases hdue : (c.store.Exps.get ⟨j, hj⟩).ttl ≤ now
          · refine ⟨i, _, by simp only [stepAt, ht, stepThread, dif_pos hj, if_pos hdue]; rfl, ?_⟩
            intro e
            have := congrArg (fun c => c.store.Exps.length) e
            simp only [List.length_append, List.length_take, List.length_drop] at this
            omega
          · refine ⟨i, _, by simp only [stepAt, ht, stepThread, dif_pos hj, if_neg hdue]; rfl, ?_⟩
            exact Config.ne_of_thread ht (hget _) (by simp)
        · refine ⟨i, _, by simp only [stepAt, ht, stepThread, dif_neg hj]; rfl, ?_⟩
          exact Config.ne_of_thread ht (hget _) (by simp)
      | swept =>
        refine ⟨i, _, by simp only [stepAt, ht, stepThread]; rfl, ?_⟩
        exact Config.ne_of_thread ht (hget _) (by simp)
      | start => simp [Pc.inside] at hin
      | finished => simp [Pc.inside] at hin
      | loaded tmp => simp [Thread.wf] at hwf
      | stored => simp [Thread.wf] at hwf
      | checked ok => simp [Thread.wf] at hwf
      | returned ok => simp [Pc.inside] at hin

/-! ## A goroutine that runs alone computes its method -/

theorem runSched_append (k : String) (a b : List Nat) :
    ∀ c : Config, runSched k c (a ++ b) = (runSched k c a).bind (fun c' => runSched k c' b) := by
  induction a with
  | nil => intro c; rfl
  | cons i a ih =>
    intro c
    simp only [List.cons_append, runSched]
    cases h : stepAt k c i with
    | none => rfl
    | some c1 => simp [ih c1]

/-- Run without interruption, the goroutine of `App(k, v)` leaves the store that
the method `App` computes, and returns its result; it panics when `App` does. -/
theorem runSched_app_alone (k : String) (s : Store) (v : Bytes) :
    runSched k (startConfig s [Slot.append v]) [0, 0, 0, 0, 0]
      = (App s k [v]).map (fun r =>
          { store := r.1, mu := false,
            threads := [{ call := Slot.append v, pc := Pc.returned r.2 }] }) := by
  cases hm : s.Itms with
  | none => simp [runSched, stepAt, stepThread, startConfig, App, hm]
  | some m =>
    simp [runSched, stepAt, stepThread, startConfig, App, hm, itmsGet, mapGet_mapSet]

theorem scan_alone (k : String) (now : Int) (post : List expItem) :
    ∀ (pre : List expItem) (itms : Option ItemMap),
      runSched k
          { store := { Itms := itms, Exps := pre ++ post }, mu := true,
            threads := [{ call := Slot.sweep now, pc := Pc.scanning pre.length }] }
          (List.replicate (post.length + 1) 0)
        = some
          { store := { Itms := deleteKeys itms (expKeys (expired now post)),
                       Exps := pre ++ alive now post },
            mu := true, threads := [{ call := Slot.sweep now, pc := Pc.swept }] } := by
  induction post with
  | nil =>
    intro pre itms
    simp [runSched, stepAt, stepThread, deleteKeys, expKeys, expired, alive]
  | cons e rest ih =>
    intro pre itms
    have hlen : pre.length < (pre ++ e :: rest).length := by simp
    rw [List.length_cons, List.replicate_succ, runSched]
    by_cases he : e.ttl ≤ now
    · have hstep : stepAt k
          { store := { Itms := itms, Exps := pre ++ e :: rest }, mu := true,
            threads := [{ call := Slot.sweep now, pc := Pc.scanning pre.length }] } 0
          = some
            { store := { Itms := itmsDelete itms e.k, Exps := pre ++ rest }, mu := true,
              threads := [{ call := Slot.sweep now, pc := Pc.scanning pre.length }] } := by
        simp only [stepAt, List.getElem?_cons_zero, stepThread, dif_pos hlen, get_middle,
          if_pos he, take_drop_middle]
        rfl
      rw [hstep, Option.some_bind, ih pre (itmsDelete itms e.k)]
      have hne : ¬ now < e.ttl := by omega
      simp [expired, alive, expKeys, deleteKeys, he, hne]
    · have hstep : stepAt k
          { store := { Itms := itms, Exps := pre ++ e :: rest }, mu := true,
            threads := [{ call := Slot.sweep now, pc := Pc.scanning pre.length }] } 0
          = some
            { store := { Itms := itms, Exps := (pre ++ [e]) ++ rest }, mu := true,
              threads := [{ call := Slot.sweep now, pc := Pc.scanning (pre ++ [e]).length }] } := by
        simp only [stepAt, List.getElem?_cons_zero, stepThread, dif_pos hlen, get_middle,
          if_neg he]
        simp
      rw [hstep, Option.some_bind, ih (pre ++ [e]) itms]
      have hlt : now < e.ttl := by omega
      simp [expired, alive, expKeys, he, hlt]

/-- Run without interruption, the goroutine of a sweeper cycle leaves the store
that the method `GC` computes. -/
theorem runSched_gc_alone (k : String) (s : Store) (now : Int) :
    runSched k (startConfig s [Slot.sweep now]) (List.replicate (s.Exps.length + 4) 0)
      = some { store := GC s now, mu := false,
               threads := [{ call := Slot.sweep now, pc := Pc.finished }] } := by
  have hsplit : List.replicate (s.Exps.length + 4) 0
      = [0, 0] ++ (List.replicate (s.Exps.length + 1) 0 ++ [0]) := by
    rw [show s.Exps.length + 4 = 2 + ((s.Exps.length + 1) + 1) by omega, List.replicate_add,
      List.replicate_add]
    rfl
  rw [hsplit, runSched_append]
  by_cases hlen : 0 < s.Exps.length
  · have h2 : runSched k (startConfig s [Slot.sweep now]) [0, 0]
        = some { store := s, mu := true,
                 threads := [{ call := Slot.sweep now, pc := Pc.scanning 0 }] } := by
      simp [runSched, stepAt, stepThread, startConfig, hlen]
    rw [h2, Option.some_bind, runSched_append]
    have hscan := scan_alone k now s.Exps [] s.Itms
    simp only [List.nil_append, List.length_nil] at hscan
    have hs : ({ Itms := s.Itms, Exps := s.Exps } : Store) = s := rfl
    rw [hs] at hscan
    rw [hscan, Option.some_bind]
    have hgc : GC s now = { Itms := deleteKeys s.Itms (expKeys (expired now s.Exps)),
                            Exps := alive now s.Exps } := by
      have h1 := GC_Itms s now
      have h2 := GC_Exps s now
      cases hg : GC s now with
      | mk itms exps =>
        rw [hg] at h1 h2
        simp only at h1 h2
        rw [h1, h2]
    simp [runSched, stepAt, stepThread, hgc]
  · have hnil : s.Exps = [] := by
      cases hs : s.Exps with
      | nil => rfl
      | cons a l => simp [hs] at hlen
    have hgc : GC s now = s := by simp [GC, hnil]
    simp [runSched, stepAt, stepThread, startConfig, hnil, hgc, List.replicate]

/-! ## Concurrent appends -/

/-- Two goroutines that are both past `Lock`, which the mutex excludes, lose an
update: both read `["a"]`, and the second assignment overwrites the first. -/
theorem two_inside_lose_update :
    (runSched "k"
        { store := { Itms := some [("k", [[97]])], Exps := [] }, mu := true,
          threads := [{ call := Slot.append [98], pc := Pc.locked },
                      { call := Slot.append [99], pc := Pc.locked }] }
        [0, 1, 0, 1, 0, 1, 0, 1]).map (fun c => (allDone c, Get c.store "k"))
      = some (true, [[97], [99]]) := by
  decide

/-- C18, as stated, fails with a sweeper among the goroutines: `k` holds `["a"]`
and expires at 0; goroutine 0 runs `Append(k,"b")`, then goroutine 1 runs a
sweeper cycle at clock 0, then goroutine 2 runs `Append(k,"c")`; all three have
returned and `k` holds `["c"]`, of length 1 and not 1 + 2.  On a store whose
mapping is nil the goroutine of an `Append` panics at its assignment. -/
theorem appends_with_sweeper_counterexample :
    runOps GetStore [.set "k" [97], .exp "k" 0 0]
        = some { Itms := some [("k", [[97]])], Exps := [{ k := "k", ttl := 0 }] }
      ∧ (runSched "k"
            (startConfig { Itms := some [("k", [[97]])], Exps := [{ k := "k", ttl := 0 }] }
              [Slot.append [98], Slot.sweep 0, Slot.append [99]])
            [0, 0, 0, 0, 0, 1, 1, 1, 1, 1, 2, 2, 2, 2, 2]).map
          (fun c => (allDone c, Get c.store "k")) = some (true, [[99]])
      ∧ runSched "k" (startConfig { Itms := none, Exps := [] } [Slot.append [98]]) [0, 0, 0]
          = none := by
  decide

/-- C18, amended: take a store with a non-nil mapping, a key `k`, and `N` calls
`Append(k, v_i)` issued concurrently together with any number of sweeper
cycles, such that no expiry entry of `k` is due at the clock of a sweeper
cycle.  The goroutines run their method bodies statement by statement, in any
order the scheduler picks, `Lock` blocking while the mutex is held.  No
schedule panics; while a goroutine has not returned some goroutine can take a
step; and once all have returned, every `Append` has returned true, the mutex
is free, and the value-list of `k` is the previous one followed by a
rearrangement of the `v_i`: its length is the previous length plus `N`. -/
theorem concurrent_appends (s : Store) (m : ItemMap) (k : String) (calls : List Slot)
    (hm : s.Itms = some m)
    (hk : ∀ e ∈ s.Exps, e.k = k → ∀ now ∈ sweepClocks calls, now < e.ttl)
    (sched : List Nat) :
    ∃ c, runSched k (startConfig s calls) sched = some c
      ∧ (allDone c = false → ∃ i c', stepAt k c i = some c' ∧ c' ≠ c)
      ∧ (allDone c = true →
          allTrue c = true ∧ c.mu = false
            ∧ (Get c.store k).length = (Get s k).length + (slotValues calls).length
            ∧ ∃ L, Get c.store k = Get s k ++ L ∧ L.Perm (slotValues calls)) := by
  obtain ⟨c, hrun, hinv⟩ := runSched_Inv sched (startConfig s calls)
    (startConfig_Inv k s m calls hm hk)
  refine ⟨c, hrun, fun hnot => hinv.progress hnot, fun hdone => ?_⟩
  obtain ⟨hmu, htrue, L, h1, h2⟩ := hinv.final hdone
  refine ⟨htrue, hmu, ?_, L, h1, h2⟩
  rw [h1, List.length_append, h2.length_eq]

/-- C18, amended, at a concrete input: `k` holds `["a"]` and expires at 9,
another key is due, and the goroutines of `Append(k,"c")`, a sweeper cycle at
clock 5 and `Append(k,"b")` are interleaved, two of them blocking on `Lock`
along the way. -/
theorem concurrent_appends_witness :
    runSched "k"
        (startConfig { Itms := some [("k", [[97]]), ("j", [[1]])],
                       Exps := [{ k := "j", ttl := 0 }, { k := "k", ttl := 9 }] }
          [Slot.append [99], Slot.sweep 5, Slot.append [98]])
        [0, 2, 0, 1, 0, 0, 0, 1, 2, 1, 1, 1, 2, 1, 1, 2, 2, 2, 2, 2]
      = some { store := { Itms := some [("k", [[97], [99], [98]])],
                          Exps := [{ k := "k", ttl := 9 }] },
               mu := false,
               threads := [{ call := Slot.append [99], pc := Pc.returned true },
                           { call := Slot.sweep 5, pc := Pc.finished },
                           { call := Slot.append [98], pc := Pc.returned true }] }
      ∧ (Get ({ Itms := some [("k", [[97], [99], [98]])],
                Exps := [{ k := "k", ttl := 9 }] } : Store) "k").length = 1 + 2 := by
  obtain ⟨c, hrun, _, hdone⟩ := concurrent_appends
    { Itms := some [("k", [[97]]), ("j", [[1]])],
      Exps := [{ k := "j", ttl := 0 }, { k := "k", ttl := 9 }] }
    [("k", [[97]]), ("j", [[1]])] "k" [Slot.append [99], Slot.sweep 5, Slot.append [98]]
    rfl (by decide) [0, 2, 0, 1, 0, 0, 0, 1, 2, 1, 1, 1, 2, 1, 1, 2, 2, 2, 2, 2]
  have hc : runSched "k"
      (startConfig { Itms := some [("k", [[97]]), ("j", [[1]])],
                     Exps := [{ k := "j", ttl := 0 }, { k := "k", ttl := 9 }] }
        [Slot.append [99], Slot.sweep 5, Slot.append [98]])
      [0, 2, 0, 1, 0, 0, 0, 1, 2, 1, 1, 1, 2, 1, 1, 2, 2, 2, 2, 2]
      = some { store := { Itms := some [("k", [[97], [99], [98]])],
                          Exps := [{ k := "k", ttl := 9 }] },
               mu := false,
               threads := [{ call := Slot.append [99], pc := Pc.returned true },
                           { call := Slot.sweep 5, pc := Pc.finished },
                           { call := Slot.append [98], pc := Pc.returned true }] } := by
    decide
  have e := Option.some.inj (hrun.symm.trans hc)
  subst e
  exact ⟨hc, (hdone (by decide)).2.2.1⟩

end MemStore
